import Mathlib

/-!
# Verification of the shelf-packing layout engine

A shallow embedding of the layout core of `task_1_starter_code.py`:

* `pack_images_shelf` (source lines 52–101): the shelf bin-packing algorithm,
  embedded via `shelfLoop` (the innermost `while i < n` loop that fills one
  shelf), `shelfStep` (one shelf including the oversized-image fallback
  branch), `middleLoop` (the per-page `while y < page_h_px - padding and
  i < n` loop) and `pagesLoop` (the outer `while i < n` loop, fuel-indexed
  because the Python loop can genuinely diverge when the page guard is never
  entered).
* the size-normalization snippet of `main` (source lines 146–155), embedded as
  `normalizeSize`, and its height-descending stable sort (source line 158),
  embedded as `sortByHeightDesc` via `List.mergeSort`.

Machine arithmetic: all the Python quantities that stay integers (`shelf_x`,
`y`, widths, heights, padding, page dimensions) are modelled as `Int`.  The
only non-integer computation in the source is the fallback scale factor
`scale = max_w / w` (Python float division) together with `int(round(...))`;
it is modelled exactly: `roundHalfEvenFrac` computes Python 3's
round-half-to-even of a fraction of integers, and `roundHalfEvenFrac_eq`
relates it to the rational-number formulation `roundHalfEven`.  No claim
settled below depends on a value where binary floating point and exact
rational arithmetic round differently.

Python exceptions are modelled with `Except PackErr`:
* `configError`  — the `raise RuntimeError("Page width too small for packing")`
  at source line 89;
* `zeroDivError` — the `ZeroDivisionError` that `scale = max_w / w` raises when
  `w == 0` (source line 90);
* `indexError`   — the out-of-bounds read `images_sizes[i]` at source line 86
  when the fallback branch is entered with `i = n`.
-/

/-- One entry of the `images_sizes` input list of `pack_images_shelf`:
the Python tuple `(w_px, h_px, original_index)`. -/
structure ImgSize where
  w : Int
  h : Int
  idx : Nat
deriving Repr, DecidableEq

/-- One placement tuple `(idx, x, y, w, h)` as appended to `placements`. -/
structure Placement where
  idx : Nat
  x : Int
  y : Int
  w : Int
  h : Int
deriving Repr, DecidableEq

/-- The runtime errors `pack_images_shelf` can raise. -/
inductive PackErr where
  | configError
  | zeroDivError
  | indexError
deriving Repr, DecidableEq

instance {ε α : Type} [DecidableEq ε] [DecidableEq α] :
    DecidableEq (Except ε α) := fun a b =>
  match a, b with
  | .error e, .error f =>
    if h : e = f then .isTrue (congrArg Except.error h)
    else .isFalse (fun hh => h (by cases hh; rfl))
  | .error _, .ok _ => .isFalse (fun hh => Except.noConfusion hh)
  | .ok _, .error _ => .isFalse (fun hh => Except.noConfusion hh)
  | .ok u, .ok v =>
    if h : u = v then .isTrue (congrArg Except.ok h)
    else .isFalse (fun hh => h (by cases hh; rfl))

/-- Python 3's `round` on an exact rational: round half to even.  This is the
specification-level version, used to state properties; the executable
embedding uses `roundHalfEvenFrac` on an explicit numerator/denominator pair
(the two agree, see `roundHalfEvenFrac_eq`). -/
def roundHalfEven (q : ℚ) : Int :=
  let f : Int := ⌊q⌋
  let r : ℚ := q - (f : ℚ)
  if r < 1/2 then f
  else if 1/2 < r then f + 1
  else if f % 2 = 0 then f else f + 1

/-- `round(a/b)` with round-half-to-even, on integers (`b ≠ 0`; the callers
guard the `b = 0` case, which in Python is a `ZeroDivisionError`). -/
def roundHalfEvenFrac (a b : Int) : Int :=
  if b = 0 then 0
  else
    let b' := if b < 0 then -b else b
    let a' := if b < 0 then -a else a
    let f := a'.fdiv b'
    let r := a' - f * b'
    if 2 * r < b' then f
    else if b' < 2 * r then f + 1
    else if f % 2 = 0 then f else f + 1

/-- The innermost loop of `pack_images_shelf` (source lines 72–82): starting
from horizontal cursor `sx` and running shelf height `sh`, place images on the
shelf at vertical position `y` while `w + shelf_x + padding <= page_w_px`,
advancing `shelf_x += w + padding` and `shelf_height = max(shelf_height, h)`.
Returns the placements made on this shelf, the final shelf height, and the
remaining (unplaced) images. -/
def shelfLoop (W pad y : Int) : List ImgSize → Int → Int →
    List Placement × Int × List ImgSize
  | [], _, sh => ([], sh, [])
  | img :: rest, sx, sh =>
    if img.w + sx + pad ≤ W then
      let r := shelfLoop W pad y rest (sx + img.w + pad) (max sh img.h)
      (⟨img.idx, sx, y, img.w, img.h⟩ :: r.1, r.2)
    else
      ([], sh, img :: rest)

/-- The fallback branch of `pack_images_shelf` (source lines 83–95), entered
when `shelf_height == 0` after the inner loop: read `images_sizes[i]` (an
`IndexError` when no image remains), raise when
`max_w = page_w_px - 2*padding <= 0`, divide by the image width (a
`ZeroDivisionError` when it is `0`), and otherwise place the single image
scaled to the usable width: `scale = max_w / w`,
`new_w = int(round(w * scale))`, `new_h = int(round(h * scale))`, placement
`(idx, padding, y, new_w, new_h)` appended after the placements `ps` already
made on this shelf, with `shelf_height = new_h`. -/
def fallback (W pad y : Int) (ps : List Placement) :
    List ImgSize → Except PackErr (List Placement × Int × List ImgSize)
  | [] => .error .indexError
  | img :: rest =>
    if W - 2 * pad ≤ 0 then .error .configError
    else if img.w = 0 then .error .zeroDivError
    else
      let newW := roundHalfEvenFrac (img.w * (W - 2 * pad)) img.w
      let newH := roundHalfEvenFrac (img.h * (W - 2 * pad)) img.w
      .ok (ps ++ [⟨img.idx, pad, y, newW, newH⟩], newH, rest)

/-- One full shelf of `pack_images_shelf` (source lines 69–95): run
`shelfLoop` from `shelf_x = padding`, `shelf_height = 0`; if the shelf height
is still `0`, enter the `fallback` branch.  Returns the shelf's placements,
the shelf height, and the remaining images. -/
def shelfStep (W pad y : Int) (imgs : List ImgSize) :
    Except PackErr (List Placement × Int × List ImgSize) :=
  match shelfLoop W pad y imgs pad 0 with
  | (ps, sh, rem) => if sh = 0 then fallback W pad y ps rem else .ok (ps, sh, rem)

theorem shelfStep_def (W pad y : Int) (imgs : List ImgSize) :
    shelfStep W pad y imgs =
      if (shelfLoop W pad y imgs pad 0).2.1 = 0 then
        fallback W pad y (shelfLoop W pad y imgs pad 0).1
          (shelfLoop W pad y imgs pad 0).2.2
      else .ok (shelfLoop W pad y imgs pad 0) := rfl

theorem shelfLoop_nil (W pad y sx sh : Int) :
    shelfLoop W pad y [] sx sh = ([], sh, []) := rfl

theorem shelfLoop_cons (W pad y : Int) (img : ImgSize) (rest : List ImgSize)
    (sx sh : Int) :
    shelfLoop W pad y (img :: rest) sx sh =
      if img.w + sx + pad ≤ W then
        let r := shelfLoop W pad y rest (sx + img.w + pad) (max sh img.h)
        (⟨img.idx, sx, y, img.w, img.h⟩ :: r.1, r.2)
      else
        ([], sh, img :: rest) := rfl

theorem shelfLoop_length (W pad y : Int) :
    ∀ (imgs : List ImgSize) (sx sh : Int),
      (shelfLoop W pad y imgs sx sh).1.length +
        (shelfLoop W pad y imgs sx sh).2.2.length = imgs.length := by
  intro imgs
  induction imgs with
  | nil => intro sx sh; simp [shelfLoop]
  | cons img rest ih =>
    intro sx sh
    by_cases h : img.w + sx + pad ≤ W
    · simp only [shelfLoop, if_pos h, List.length_cons]
      have := ih (sx + img.w + pad) (max sh img.h)
      omega
    · simp [shelfLoop, if_neg h]

theorem shelfLoop_fst_nil {W pad y : Int} {imgs : List ImgSize} {sx sh : Int}
    (h : (shelfLoop W pad y imgs sx sh).1 = []) :
    shelfLoop W pad y imgs sx sh = ([], sh, imgs) := by
  cases imgs with
  | nil => rfl
  | cons img rest =>
    rw [shelfLoop_cons] at h ⊢
    by_cases hfit : img.w + sx + pad ≤ W
    · rw [if_pos hfit] at h
      exact absurd h (by simp)
    · rw [if_neg hfit]

theorem fallback_ok {W pad y : Int} {ps : List Placement} {imgs : List ImgSize}
    {ps' : List Placement} {sh : Int} {rem : List ImgSize}
    (h : fallback W pad y ps imgs = .ok (ps', sh, rem)) :
    ∃ img rest, imgs = img :: rest ∧ ¬ W - 2 * pad ≤ 0 ∧ img.w ≠ 0 ∧
      ps' = ps ++ [⟨img.idx, pad, y,
        roundHalfEvenFrac (img.w * (W - 2 * pad)) img.w,
        roundHalfEvenFrac (img.h * (W - 2 * pad)) img.w⟩] ∧
      sh = roundHalfEvenFrac (img.h * (W - 2 * pad)) img.w ∧ rem = rest := by
  cases imgs with
  | nil => exact absurd h (by simp [fallback])
  | cons img rest =>
    by_cases h1 : W - 2 * pad ≤ 0
    · rw [fallback, if_pos h1] at h
      exact absurd h (by simp)
    · by_cases h2 : img.w = 0
      · rw [fallback, if_neg h1, if_pos h2] at h
        exact absurd h (by simp)
      · rw [fallback, if_neg h1, if_neg h2] at h
        simp only [Except.ok.injEq, Prod.mk.injEq] at h
        exact ⟨img, rest, rfl, h1, h2, h.1.symm, h.2.1.symm, h.2.2.symm⟩

theorem shelfStep_length {W pad y : Int} {imgs : List ImgSize}
    {ps : List Placement} {sh : Int} {rem : List ImgSize}
    (h : shelfStep W pad y imgs = .ok (ps, sh, rem)) (hne : imgs ≠ []) :
    rem.length < imgs.length := by
  have hlen := shelfLoop_length W pad y imgs pad 0
  rw [shelfStep_def] at h
  rcases hsl : shelfLoop W pad y imgs pad 0 with ⟨ps0, sh0, rem0⟩
  rw [hsl] at h hlen
  simp only at h hlen
  by_cases hz : sh0 = 0
  · rw [if_pos hz] at h
    obtain ⟨img, rest, hcons, -, -, -, -, hrem⟩ := fallback_ok h
    subst hrem hcons
    simp only [List.length_cons] at hlen
    omega
  · rw [if_neg hz] at h
    simp only [Except.ok.injEq, Prod.mk.injEq] at h
    obtain ⟨hps, -, hrem⟩ := h
    by_cases hp0 : ps0 = []
    · exfalso
      have hfn : (shelfLoop W pad y imgs pad 0).1 = [] := by
        rw [hsl]; exact hp0
      have h2 := shelfLoop_fst_nil hfn
      rw [hsl] at h2
      exact hz (congrArg (·.2.1) h2)
    · have h1 : ps0.length ≠ 0 := fun h0 => hp0 (List.length_eq_zero.mp h0)
      have h2 : imgs.length ≠ 0 := fun h0 => hne (List.length_eq_zero.mp h0)
      subst hrem
      omega

/-- The middle loop of `pack_images_shelf` (source lines 68–99): `while
y < page_h_px - padding and i < n`, run one shelf, advance
`y += shelf_height + padding`, and stop the page when the next shelf would
start at or beyond `page_h_px - padding` (the explicit `break` at line 99 is
equivalent to re-testing the `while` guard).  Returns the placements of one
page and the remaining images. -/
def middleLoop (W H pad : Int) (y : Int) (imgs : List ImgSize) :
    Except PackErr (List Placement × List ImgSize) :=
  if h : y < H - pad ∧ imgs ≠ [] then
    match hstep : shelfStep W pad y imgs with
    | .error e => .error e
    | .ok (ps, sh, rem) =>
      match middleLoop W H pad (y + sh + pad) rem with
      | .error e => .error e
      | .ok (ps', rem') => .ok (ps ++ ps', rem')
  else
    .ok ([], imgs)
termination_by imgs.length
decreasing_by
  exact shelfStep_length hstep h.2

/-- The outer loop of `pack_images_shelf` (source lines 65–100): `while i < n`,
emit one page per iteration.  The Python loop diverges when a page consumes no
image (which happens exactly when the middle loop's guard fails immediately),
so the embedding is fuel-indexed: `none` models non-termination. -/
def pagesLoop (W H pad : Int) :
    Nat → List ImgSize → Option (Except PackErr (List (List Placement)))
  | _, [] => some (.ok [])
  | 0, _ :: _ => none
  | fuel + 1, img :: rest =>
    match middleLoop W H pad pad (img :: rest) with
    | .error e => some (.error e)
    | .ok (ps, rem) =>
      match pagesLoop W H pad fuel rem with
      | none => none
      | some (.error e) => some (.error e)
      | some (.ok pages) => some (.ok (ps :: pages))

/-- `pack_images_shelf(images_sizes, page_w_px, page_h_px, padding)` (source
lines 52–101).  A terminating run of the Python loop makes at most
`len(images_sizes)` page iterations (each page consumes at least one image,
and a page that consumes none repeats the identical state forever), so fuel
`length + 1` is exact: `some r` is the Python result (normal return or
exception), `none` means the Python call diverges. -/
def pack_images_shelf (images_sizes : List ImgSize) (page_w_px page_h_px pad : Int) :
    Option (Except PackErr (List (List Placement))) :=
  pagesLoop page_w_px page_h_px pad (images_sizes.length + 1) images_sizes

/-- Minimum of two fractions `p.1/p.2` and `q.1/q.2` with positive
denominators, returning the smaller fraction unsimplified (Python's `min`
compares the values; only the value of the result is used downstream). -/
def minFrac (p q : Int × Int) : Int × Int :=
  if p.1 * q.2 ≤ q.1 * p.2 then p else q

/-- The per-image size normalization inline in `main` (source lines 146–155):
`scale = min(1.0, max_w / w if w>0 else 1.0, max_h / h if h>0 else 1.0)`,
output `(int(round(w*scale)), int(round(h*scale)))`.  The scale is carried as
an exact fraction `(numerator, denominator)` with positive denominator;
`normalizeSize_eq_spec` relates this to the rational-number formula of the
specification. -/
def normalizeSize (max_w max_h w h : Int) : Int × Int :=
  let s1 : Int × Int := if 0 < w then (max_w, w) else (1, 1)
  let s2 : Int × Int := if 0 < h then (max_h, h) else (1, 1)
  let m := minFrac (minFrac (1, 1) s1) s2
  (roundHalfEvenFrac (w * m.1) m.2, roundHalfEvenFrac (h * m.1) m.2)

-- scratch sanity checks (Python: round(0.5)=0, round(1.5)=2, round(2.5)=2, round(-0.5)=0)
/-- Python 3 `round` ties to even: `round(0.5)=0`, `round(1.5)=2`,
`round(2.5)=2`, `round(-0.5)=0`, `round(3.5)=4`, `round(1.4)=1`,
`round(1.6)=2`. -/
theorem roundHalfEvenFrac_ties_to_even :
    roundHalfEvenFrac 1 2 = 0 ∧ roundHalfEvenFrac 3 2 = 2 ∧
    roundHalfEvenFrac 5 2 = 2 ∧ roundHalfEvenFrac (-1) 2 = 0 ∧
    roundHalfEvenFrac 7 2 = 4 ∧ roundHalfEvenFrac 14 10 = 1 ∧
    roundHalfEvenFrac 16 10 = 2 := by decide

/-! ## Arithmetic facts about the fallback rounding -/

/-- Scaling a positive width `a` by `b / a` and rounding gives back `b`:
the fallback width is exactly the usable width. -/
theorem roundHalfEvenFrac_mul_self {a b : Int} (ha : 0 < a) :
    roundHalfEvenFrac (a * b) a = b := by
  unfold roundHalfEvenFrac
  rw [if_neg (by omega)]
  simp only [if_neg (by omega : ¬ a < 0)]
  rw [Int.mul_fdiv_cancel_left b (by omega)]
  have hr : a * b - b * a = 0 := by ring
  rw [hr]
  rw [if_pos (by omega)]

/-- Rounding a non-negative fraction is non-negative. -/
theorem roundHalfEvenFrac_nonneg {a b : Int} (ha : 0 ≤ a) (hb : 0 < b) :
    0 ≤ roundHalfEvenFrac a b := by
  unfold roundHalfEvenFrac
  rw [if_neg (by omega)]
  simp only [if_neg (by omega : ¬ b < 0)]
  have hf : 0 ≤ a.fdiv b := Int.fdiv_nonneg ha (by omega)
  split
  · exact hf
  · split
    · omega
    · split <;> omega

/-! ## Invariants of the shelf inner loop -/

theorem shelfLoop_ids (W pad y : Int) :
    ∀ (imgs : List ImgSize) (sx sh : Int),
      (shelfLoop W pad y imgs sx sh).1.map Placement.idx ++
        (shelfLoop W pad y imgs sx sh).2.2.map ImgSize.idx =
        imgs.map ImgSize.idx := by
  intro imgs
  induction imgs with
  | nil => intro sx sh; simp [shelfLoop]
  | cons img rest ih =>
    intro sx sh
    rw [shelfLoop_cons]
    by_cases hfit : img.w + sx + pad ≤ W
    · rw [if_pos hfit]
      simpa using ih (sx + img.w + pad) (max sh img.h)
    · rw [if_neg hfit]
      simp

theorem shelfLoop_suffix (W pad y : Int) :
    ∀ (imgs : List ImgSize) (sx sh : Int),
      (shelfLoop W pad y imgs sx sh).2.2.Sublist imgs := by
  intro imgs
  induction imgs with
  | nil => intro sx sh; simp [shelfLoop]
  | cons img rest ih =>
    intro sx sh
    rw [shelfLoop_cons]
    by_cases hfit : img.w + sx + pad ≤ W
    · rw [if_pos hfit]
      exact (ih (sx + img.w + pad) (max sh img.h)).cons img
    · rw [if_neg hfit]

theorem shelfLoop_sh_le (W pad y : Int) :
    ∀ (imgs : List ImgSize) (sx sh : Int),
      sh ≤ (shelfLoop W pad y imgs sx sh).2.1 := by
  intro imgs
  induction imgs with
  | nil => intro sx sh; simp [shelfLoop]
  | cons img rest ih =>
    intro sx sh
    rw [shelfLoop_cons]
    by_cases hfit : img.w + sx + pad ≤ W
    · rw [if_pos hfit]
      exact le_trans (le_max_left sh img.h) (ih (sx + img.w + pad) (max sh img.h))
    · rw [if_neg hfit]

/-- With positive heights, a shelf with final height equal to the initial `0`
placed nothing: the fallback branch is entered only on an empty shelf. -/
theorem shelfLoop_sh_zero {W pad y : Int} {imgs : List ImgSize} {sx : Int}
    (hpos : ∀ i ∈ imgs, 1 ≤ i.h)
    (h : (shelfLoop W pad y imgs sx 0).2.1 = 0) :
    shelfLoop W pad y imgs sx 0 = ([], 0, imgs) := by
  cases imgs with
  | nil => rfl
  | cons img rest =>
    rw [shelfLoop_cons] at h ⊢
    by_cases hfit : img.w + sx + pad ≤ W
    · exfalso
      rw [if_pos hfit] at h
      simp only at h
      have h1 := shelfLoop_sh_le W pad y rest (sx + img.w + pad) (max 0 img.h)
      have h2 : 1 ≤ img.h := hpos img (by simp)
      have h3 : 1 ≤ max 0 img.h := le_trans h2 (le_max_right 0 img.h)
      omega
    · rw [if_neg hfit]

/-- Every placement made by the shelf loop: its `y` is the shelf's `y`, its
height is at most the final shelf height, its `x` is at least the starting
cursor, and `x + w + padding ≤ page_w_px` (the fit condition). -/
theorem shelfLoop_placements (W pad y : Int) :
    ∀ (imgs : List ImgSize) (sx sh : Int),
      (∀ i ∈ imgs, 0 ≤ i.w) → 0 ≤ pad → sx ≥ pad →
      ∀ p ∈ (shelfLoop W pad y imgs sx sh).1,
        p.y = y ∧ p.h ≤ (shelfLoop W pad y imgs sx sh).2.1 ∧
        pad ≤ p.x ∧ sx ≤ p.x ∧ p.x + p.w + pad ≤ W := by
  intro imgs
  induction imgs with
  | nil => intro sx sh _ _ _ p hp; simp [shelfLoop] at hp
  | cons img rest ih =>
    intro sx sh hw hpad hsx p hp
    rw [shelfLoop_cons] at hp ⊢
    by_cases hfit : img.w + sx + pad ≤ W
    · rw [if_pos hfit] at hp ⊢
      dsimp only at hp ⊢
      simp only [List.mem_cons] at hp
      have hw0 : 0 ≤ img.w := hw img (by simp)
      rcases hp with rfl | hp
      · refine ⟨rfl, ?_, hsx, le_refl _, ?_⟩
        · have h1 : img.h ≤ max sh img.h := le_max_right sh img.h
          have h2 := shelfLoop_sh_le W pad y rest (sx + img.w + pad) (max sh img.h)
          exact le_trans h1 h2
        · show sx + img.w + pad ≤ W
          omega
      · have := ih (sx + img.w + pad) (max sh img.h)
          (fun i hi => hw i (by simp [hi])) hpad (by omega) p hp
        exact ⟨this.1, this.2.1, this.2.2.1, by omega, this.2.2.2.2⟩
    · rw [if_neg hfit] at hp
      simp at hp

/-- Placements on one shelf are pairwise separated horizontally:
each one ends (plus padding) before the next begins. -/
theorem shelfLoop_pairwise (W pad y : Int) :
    ∀ (imgs : List ImgSize) (sx sh : Int),
      (∀ i ∈ imgs, 0 ≤ i.w) → 0 ≤ pad → sx ≥ pad →
      (shelfLoop W pad y imgs sx sh).1.Pairwise
        (fun p q => p.x + p.w ≤ q.x) := by
  intro imgs
  induction imgs with
  | nil => intro sx sh _ _ _; simp [shelfLoop]
  | cons img rest ih =>
    intro sx sh hw hpad hsx
    rw [shelfLoop_cons]
    by_cases hfit : img.w + sx + pad ≤ W
    · rw [if_pos hfit]
      simp only [List.pairwise_cons]
      have hw0 : 0 ≤ img.w := hw img (by simp)
      constructor
      · intro q hq
        have := shelfLoop_placements W pad y rest (sx + img.w + pad)
          (max sh img.h) (fun i hi => hw i (by simp [hi])) hpad (by omega) q hq
        omega
      · exact ih (sx + img.w + pad) (max sh img.h)
          (fun i hi => hw i (by simp [hi])) hpad (by omega)
    · rw [if_neg hfit]
      simp

/-! ## Invariants of one shelf step (inner loop plus fallback) -/

theorem shelfStep_ids {W pad y : Int} {imgs : List ImgSize}
    {ps : List Placement} {sh : Int} {rem : List ImgSize}
    (h : shelfStep W pad y imgs = .ok (ps, sh, rem)) :
    ps.map Placement.idx ++ rem.map ImgSize.idx = imgs.map ImgSize.idx := by
  have hids := shelfLoop_ids W pad y imgs pad 0
  rw [shelfStep_def] at h
  rcases hsl : shelfLoop W pad y imgs pad 0 with ⟨ps0, sh0, rem0⟩
  rw [hsl] at h hids
  simp only at h hids
  by_cases hz : sh0 = 0
  · rw [if_pos hz] at h
    obtain ⟨img, rest, hcons, -, -, hps, -, hrem⟩ := fallback_ok h
    subst hps hrem hcons
    simpa using hids
  · rw [if_neg hz] at h
    simp only [Except.ok.injEq, Prod.mk.injEq] at h
    obtain ⟨hps, -, hrem⟩ := h
    subst hps hrem
    exact hids

theorem shelfStep_suffix {W pad y : Int} {imgs : List ImgSize}
    {ps : List Placement} {sh : Int} {rem : List ImgSize}
    (h : shelfStep W pad y imgs = .ok (ps, sh, rem)) :
    rem.Sublist imgs := by
  have hsuf := shelfLoop_suffix W pad y imgs pad 0
  rw [shelfStep_def] at h
  rcases hsl : shelfLoop W pad y imgs pad 0 with ⟨ps0, sh0, rem0⟩
  rw [hsl] at h hsuf
  simp only at h hsuf
  by_cases hz : sh0 = 0
  · rw [if_pos hz] at h
    obtain ⟨img, rest, hcons, -, -, -, -, hrem⟩ := fallback_ok h
    subst hcons
    rw [hrem]
    exact (List.sublist_cons_self img rest).trans hsuf
  · rw [if_neg hz] at h
    simp only [Except.ok.injEq, Prod.mk.injEq] at h
    obtain ⟨-, -, hrem⟩ := h
    subst hrem
    exact hsuf

/-- With positive widths and heights and positive usable width, a shelf step
never raises. -/
theorem shelfStep_no_error {W pad y : Int} {imgs : List ImgSize}
    (hne : imgs ≠ []) (hpos : ∀ i ∈ imgs, 1 ≤ i.w ∧ 1 ≤ i.h)
    (hW : 0 < W - 2 * pad) :
    ∃ ps sh rem, shelfStep W pad y imgs = .ok (ps, sh, rem) := by
  rw [shelfStep_def]
  rcases hsl : shelfLoop W pad y imgs pad 0 with ⟨ps0, sh0, rem0⟩
  simp only
  by_cases hz : sh0 = 0
  · rw [if_pos hz]
    have hz' : (shelfLoop W pad y imgs pad 0).2.1 = 0 := by rw [hsl]; exact hz
    have h0 := shelfLoop_sh_zero (fun i hi => (hpos i hi).2) hz'
    rw [hsl] at h0
    simp only [Prod.mk.injEq] at h0
    obtain ⟨hps0, -, hrem0⟩ := h0
    rw [hps0, hrem0]
    cases imgs with
    | nil => exact absurd rfl hne
    | cons img rest =>
      have hw : 1 ≤ img.w := (hpos img (by simp)).1
      rw [fallback, if_neg (by omega), if_neg (by omega)]
      exact ⟨_, _, _, rfl⟩
  · rw [if_neg hz]
    exact ⟨_, _, _, rfl⟩

/-- A shelf step on a non-empty list places at least one image. -/
theorem shelfStep_placed_ne {W pad y : Int} {imgs : List ImgSize}
    {ps : List Placement} {sh : Int} {rem : List ImgSize}
    (h : shelfStep W pad y imgs = .ok (ps, sh, rem)) (hne : imgs ≠ []) :
    ps ≠ [] := by
  rw [shelfStep_def] at h
  rcases hsl : shelfLoop W pad y imgs pad 0 with ⟨ps0, sh0, rem0⟩
  rw [hsl] at h
  simp only at h
  by_cases hz : sh0 = 0
  · rw [if_pos hz] at h
    obtain ⟨img, rest, hcons, -, -, hps, -, -⟩ := fallback_ok h
    subst hps
    simp
  · rw [if_neg hz] at h
    simp only [Except.ok.injEq, Prod.mk.injEq] at h
    obtain ⟨hps, -, -⟩ := h
    subst hps
    intro hps0
    have hfn : (shelfLoop W pad y imgs pad 0).1 = [] := by rw [hsl]; exact hps0
    have h2 := shelfLoop_fst_nil hfn
    rw [hsl] at h2
    exact hz (congrArg (·.2.1) h2)

/-- Bounds on the placements of one shelf step, positive sizes,
non-negative padding: `x` within the padded width, `y` at the shelf's `y`,
height at most the shelf height, shelf height non-negative. -/
theorem shelfStep_bounds {W pad y : Int} {imgs : List ImgSize}
    {ps : List Placement} {sh : Int} {rem : List ImgSize}
    (h : shelfStep W pad y imgs = .ok (ps, sh, rem))
    (hpos : ∀ i ∈ imgs, 1 ≤ i.w ∧ 1 ≤ i.h) (hpad : 0 ≤ pad) :
    (∀ p ∈ ps, pad ≤ p.x ∧ p.x + p.w ≤ W - pad ∧ p.y = y ∧ p.h ≤ sh) ∧
      0 ≤ sh := by
  have hw : ∀ i ∈ imgs, 0 ≤ i.w := fun i hi => by have := (hpos i hi).1; omega
  have hpl := shelfLoop_placements W pad y imgs pad 0 hw hpad (le_refl pad)
  rw [shelfStep_def] at h
  rcases hsl : shelfLoop W pad y imgs pad 0 with ⟨ps0, sh0, rem0⟩
  rw [hsl] at h hpl
  simp only at h hpl
  by_cases hz : sh0 = 0
  · rw [if_pos hz] at h
    have hz' : (shelfLoop W pad y imgs pad 0).2.1 = 0 := by rw [hsl]; exact hz
    have h0 := shelfLoop_sh_zero (fun i hi => (hpos i hi).2) hz'
    rw [hsl] at h0
    injection h0 with h1 h2
    injection h2 with h3 h4
    obtain ⟨img, rest, hcons, hmw, hw0, hps, hsh, hrem⟩ := fallback_ok h
    subst hps hsh h1
    have himg : img ∈ imgs := by rw [← h4, hcons]; simp
    have hw1 : 1 ≤ img.w := (hpos img himg).1
    have hh1 : 1 ≤ img.h := (hpos img himg).2
    have hnewW : roundHalfEvenFrac (img.w * (W - 2 * pad)) img.w = W - 2 * pad :=
      roundHalfEvenFrac_mul_self (by omega)
    have hnewH : 0 ≤ roundHalfEvenFrac (img.h * (W - 2 * pad)) img.w :=
      roundHalfEvenFrac_nonneg
        (mul_nonneg (by omega) (by omega)) (by omega)
    constructor
    · intro p hp
      simp only [List.nil_append, List.mem_singleton] at hp
      subst hp
      refine ⟨le_refl pad, ?_, rfl, le_refl _⟩
      show pad + roundHalfEvenFrac (img.w * (W - 2 * pad)) img.w ≤ W - pad
      rw [hnewW]; omega
    · exact hnewH
  · rw [if_neg hz] at h
    simp only [Except.ok.injEq, Prod.mk.injEq] at h
    obtain ⟨hps, hsh, -⟩ := h
    subst hps hsh
    constructor
    · intro p hp
      have := hpl p hp
      exact ⟨this.2.2.1, by omega, this.1, this.2.1⟩
    · have := shelfLoop_sh_le W pad y imgs pad 0
      rw [hsl] at this
      exact this

/-- Placements of one shelf step are pairwise horizontally separated
(positive sizes, non-negative padding). -/
theorem shelfStep_pairwise {W pad y : Int} {imgs : List ImgSize}
    {ps : List Placement} {sh : Int} {rem : List ImgSize}
    (h : shelfStep W pad y imgs = .ok (ps, sh, rem))
    (hpos : ∀ i ∈ imgs, 1 ≤ i.w ∧ 1 ≤ i.h) (hpad : 0 ≤ pad) :
    ps.Pairwise (fun p q => p.x + p.w ≤ q.x) := by
  have hw : ∀ i ∈ imgs, 0 ≤ i.w := fun i hi => by have := (hpos i hi).1; omega
  have hpw := shelfLoop_pairwise W pad y imgs pad 0 hw hpad (le_refl pad)
  rw [shelfStep_def] at h
  rcases hsl : shelfLoop W pad y imgs pad 0 with ⟨ps0, sh0, rem0⟩
  rw [hsl] at h hpw
  simp only at h hpw
  by_cases hz : sh0 = 0
  · rw [if_pos hz] at h
    have hz' : (shelfLoop W pad y imgs pad 0).2.1 = 0 := by rw [hsl]; exact hz
    have h0 := shelfLoop_sh_zero (fun i hi => (hpos i hi).2) hz'
    rw [hsl] at h0
    injection h0 with h1 h2
    obtain ⟨img, rest, hcons, -, -, hps, -, -⟩ := fallback_ok h
    subst hps h1
    simp
  · rw [if_neg hz] at h
    simp only [Except.ok.injEq, Prod.mk.injEq] at h
    obtain ⟨hps, -, -⟩ := h
    subst hps
    exact hpw

/-! ## Invariants of the middle (per-page) loop -/

theorem middleLoop_eq_stop {W H pad y : Int} {imgs : List ImgSize}
    (hc : ¬(y < H - pad ∧ imgs ≠ [])) :
    middleLoop W H pad y imgs = .ok ([], imgs) := by
  unfold middleLoop
  rw [dif_neg hc]

theorem middleLoop_eq_err {W H pad y : Int} {imgs : List ImgSize} {e : PackErr}
    (hc : y < H - pad ∧ imgs ≠ []) (hstep : shelfStep W pad y imgs = .error e) :
    middleLoop W H pad y imgs = .error e := by
  unfold middleLoop
  rw [dif_pos hc]
  split
  · rename_i e' heq
    rw [hstep] at heq
    injection heq with h1
    rw [h1]
  · rename_i ps sh rem heq
    rw [hstep] at heq
    cases heq

theorem middleLoop_eq_ok {W H pad y : Int} {imgs : List ImgSize}
    {ps : List Placement} {sh : Int} {rem : List ImgSize}
    (hc : y < H - pad ∧ imgs ≠ [])
    (hstep : shelfStep W pad y imgs = .ok (ps, sh, rem)) :
    middleLoop W H pad y imgs =
      match middleLoop W H pad (y + sh + pad) rem with
      | .error e => .error e
      | .ok (ps', rem') => .ok (ps ++ ps', rem') := by
  conv_lhs => rw [middleLoop]
  rw [dif_pos hc]
  split
  · rename_i e' heq
    rw [hstep] at heq
    cases heq
  · rename_i ps0 sh0 rem0 heq
    rw [hstep] at heq
    injection heq with h1
    injection h1 with h2 h3
    injection h3 with h4 h5
    subst h2 h4 h5
    rfl

theorem middleLoop_ids (W H pad : Int) :
    ∀ (y : Int) (imgs : List ImgSize) (ps : List Placement) (rem : List ImgSize),
      middleLoop W H pad y imgs = .ok (ps, rem) →
      ps.map Placement.idx ++ rem.map ImgSize.idx = imgs.map ImgSize.idx := by
  intro y imgs
  induction y, imgs using middleLoop.induct W H pad with
  | case1 y imgs hc e hstep =>
    intro ps rem h
    rw [middleLoop_eq_err hc hstep] at h
    exact absurd h (by simp)
  | case2 y imgs hc ps sh rem hstep e hrec ih =>
    intro ps0 rem0 h
    rw [middleLoop_eq_ok hc hstep, hrec] at h
    exact absurd h (by simp)
  | case3 y imgs hc ps sh rem hstep ps' rem' hrec ih =>
    intro ps0 rem0 h
    rw [middleLoop_eq_ok hc hstep, hrec] at h
    simp only [Except.ok.injEq, Prod.mk.injEq] at h
    obtain ⟨hps, hrem⟩ := h
    subst hps hrem
    have h1 := shelfStep_ids hstep
    have h2 := ih ps' rem' hrec
    rw [List.map_append, List.append_assoc, h2, h1]
  | case4 y imgs hc =>
    intro ps rem h
    rw [middleLoop_eq_stop hc] at h
    simp only [Except.ok.injEq, Prod.mk.injEq] at h
    obtain ⟨hps, hrem⟩ := h
    subst hps hrem
    simp

theorem middleLoop_rem_sublist (W H pad : Int) :
    ∀ (y : Int) (imgs : List ImgSize) (ps : List Placement) (rem : List ImgSize),
      middleLoop W H pad y imgs = .ok (ps, rem) → rem.Sublist imgs := by
  intro y imgs
  induction y, imgs using middleLoop.induct W H pad with
  | case1 y imgs hc e hstep =>
    intro ps rem h
    rw [middleLoop_eq_err hc hstep] at h
    exact absurd h (by simp)
  | case2 y imgs hc ps sh rem hstep e hrec ih =>
    intro ps0 rem0 h
    rw [middleLoop_eq_ok hc hstep, hrec] at h
    exact absurd h (by simp)
  | case3 y imgs hc ps sh rem hstep ps' rem' hrec ih =>
    intro ps0 rem0 h
    rw [middleLoop_eq_ok hc hstep, hrec] at h
    simp only [Except.ok.injEq, Prod.mk.injEq] at h
    obtain ⟨-, hrem⟩ := h
    subst hrem
    exact (ih ps' rem' hrec).trans (shelfStep_suffix hstep)
  | case4 y imgs hc =>
    intro ps rem h
    rw [middleLoop_eq_stop hc] at h
    simp only [Except.ok.injEq, Prod.mk.injEq] at h
    obtain ⟨-, hrem⟩ := h
    subst hrem
    exact List.Sublist.refl imgs

/-- With positive sizes and positive usable width, the per-page loop never
raises. -/
theorem middleLoop_no_error (W H pad : Int) (hW : 0 < W - 2 * pad) :
    ∀ (y : Int) (imgs : List ImgSize),
      (∀ i ∈ imgs, 1 ≤ i.w ∧ 1 ≤ i.h) →
      ∃ ps rem, middleLoop W H pad y imgs = .ok (ps, rem) := by
  intro y imgs
  induction y, imgs using middleLoop.induct W H pad with
  | case1 y imgs hc e hstep =>
    intro hpos
    obtain ⟨ps, sh, rem, hok⟩ := shelfStep_no_error hc.2 hpos hW
    rw [hok] at hstep
    cases hstep
  | case2 y imgs hc ps sh rem hstep e hrec ih =>
    intro hpos
    have hpos' : ∀ i ∈ rem, 1 ≤ i.w ∧ 1 ≤ i.h :=
      fun i hi => hpos i ((shelfStep_suffix hstep).mem hi)
    obtain ⟨ps', rem', hok⟩ := ih hpos'
    rw [hok] at hrec
    cases hrec
  | case3 y imgs hc ps sh rem hstep ps' rem' hrec ih =>
    intro hpos
    rw [middleLoop_eq_ok hc hstep, hrec]
    exact ⟨_, _, rfl⟩
  | case4 y imgs hc =>
    intro hpos
    rw [middleLoop_eq_stop hc]
    exact ⟨_, _, rfl⟩

/-- A page that starts within the vertical guard and has images left
consumes at least one image. -/
theorem middleLoop_progress {W H pad y : Int} {imgs : List ImgSize}
    {ps : List Placement} {rem : List ImgSize}
    (hy : y < H - pad) (hne : imgs ≠ [])
    (h : middleLoop W H pad y imgs = .ok (ps, rem)) :
    rem.length < imgs.length := by
  have hc : y < H - pad ∧ imgs ≠ [] := ⟨hy, hne⟩
  rcases hstep : shelfStep W pad y imgs with e | ⟨ps0, sh0, rem0⟩
  · rw [middleLoop_eq_err hc hstep] at h
    exact absurd h (by simp)
  · rw [middleLoop_eq_ok hc hstep] at h
    rcases hrec : middleLoop W H pad (y + sh0 + pad) rem0 with e | ⟨ps', rem'⟩
    · rw [hrec] at h
      exact absurd h (by simp)
    · rw [hrec] at h
      simp only [Except.ok.injEq, Prod.mk.injEq] at h
      obtain ⟨-, hrem⟩ := h
      have h1 : rem'.Sublist rem0 := middleLoop_rem_sublist W H pad _ _ _ _ hrec
      have h2 := shelfStep_length hstep hne
      have h3 := h1.length_le
      rw [← hrem]
      omega

/-- Two placement rectangles intersect in their open interiors:
`(x, x+w) × (y, y+h)` meets `(x', x'+w') × (y', y'+h')`. -/
def overlaps (p q : Placement) : Prop :=
  p.x < q.x + q.w ∧ q.x < p.x + p.w ∧ p.y < q.y + q.h ∧ q.y < p.y + p.h

instance (p q : Placement) : Decidable (overlaps p q) := by
  unfold overlaps; infer_instance

/-- Layout invariant of one page: all placements lie within the horizontal
padded band, start at or below the page's starting cursor, start above the
bottom padding line, and are pairwise non-overlapping. -/
theorem middleLoop_layout (W H pad : Int) (hpad : 0 ≤ pad) :
    ∀ (y : Int) (imgs : List ImgSize),
      (∀ i ∈ imgs, 1 ≤ i.w ∧ 1 ≤ i.h) →
      ∀ (ps : List Placement) (rem : List ImgSize),
        middleLoop W H pad y imgs = .ok (ps, rem) →
        (∀ p ∈ ps, pad ≤ p.x ∧ p.x + p.w ≤ W - pad ∧ y ≤ p.y ∧ p.y < H - pad) ∧
        ps.Pairwise (fun p q => ¬ overlaps p q) := by
  intro y imgs
  induction y, imgs using middleLoop.induct W H pad with
  | case1 y imgs hc e hstep =>
    intro _ ps rem h
    rw [middleLoop_eq_err hc hstep] at h
    exact absurd h (by simp)
  | case2 y imgs hc ps sh rem hstep e hrec ih =>
    intro _ ps0 rem0 h
    rw [middleLoop_eq_ok hc hstep, hrec] at h
    exact absurd h (by simp)
  | case3 y imgs hc ps sh rem hstep ps' rem' hrec ih =>
    intro hpos ps0 rem0 h
    rw [middleLoop_eq_ok hc hstep, hrec] at h
    simp only [Except.ok.injEq, Prod.mk.injEq] at h
    obtain ⟨hps, -⟩ := h
    subst hps
    have hpos' : ∀ i ∈ rem, 1 ≤ i.w ∧ 1 ≤ i.h :=
      fun i hi => hpos i ((shelfStep_suffix hstep).mem hi)
    obtain ⟨hb, hsh⟩ := shelfStep_bounds hstep hpos hpad
    obtain ⟨hb', hpw'⟩ := ih hpos' ps' rem' hrec
    have hsep : ∀ p ∈ ps, ∀ q ∈ ps', p.y + p.h ≤ q.y := by
      intro p hp q hq
      have h1 := hb p hp
      have h2 := (hb' q hq).2.2.1
      omega
    constructor
    · intro p hp
      rcases List.mem_append.mp hp with hp | hp
      · have h1 := hb p hp
        exact ⟨h1.1, h1.2.1, le_of_eq h1.2.2.1.symm, h1.2.2.1 ▸ hc.1⟩
      · have h1 := hb' p hp
        exact ⟨h1.1, h1.2.1, by have := h1.2.2.1; omega, h1.2.2.2⟩
    · rw [List.pairwise_append]
      refine ⟨?_, hpw', ?_⟩
      · exact (shelfStep_pairwise hstep hpos hpad).imp
          (fun {p q} hle hov => absurd hov.2.1 (by omega))
      · intro p hp q hq
        have := hsep p hp q hq
        intro hov
        exact absurd this (by have := hov.2.2.2; omega)
  | case4 y imgs hc =>
    intro _ ps rem h
    rw [middleLoop_eq_stop hc] at h
    simp only [Except.ok.injEq, Prod.mk.injEq] at h
    obtain ⟨hps, -⟩ := h
    subst hps
    exact ⟨by simp, by simp⟩

/-! ## Invariants of the outer (pages) loop -/

theorem pagesLoop_nil (W H pad : Int) (fuel : Nat) :
    pagesLoop W H pad fuel [] = some (.ok []) := by
  cases fuel <;> rfl

theorem pagesLoop_zero (W H pad : Int) (img : ImgSize) (rest : List ImgSize) :
    pagesLoop W H pad 0 (img :: rest) = none := rfl

theorem pagesLoop_succ (W H pad : Int) (fuel : Nat) (img : ImgSize)
    (rest : List ImgSize) :
    pagesLoop W H pad (fuel + 1) (img :: rest) =
      match middleLoop W H pad pad (img :: rest) with
      | .error e => some (.error e)
      | .ok (ps, rem) =>
        match pagesLoop W H pad fuel rem with
        | none => none
        | some (.error e) => some (.error e)
        | some (.ok pages) => some (.ok (ps :: pages)) := rfl

theorem pagesLoop_ids (W H pad : Int) :
    ∀ (fuel : Nat) (imgs : List ImgSize) (pages : List (List Placement)),
      pagesLoop W H pad fuel imgs = some (.ok pages) →
      pages.flatten.map Placement.idx = imgs.map ImgSize.idx := by
  intro fuel
  induction fuel with
  | zero =>
    intro imgs pages h
    cases imgs with
    | nil =>
      rw [pagesLoop_nil] at h
      simp only [Option.some.injEq, Except.ok.injEq] at h
      subst h
      simp
    | cons img rest =>
      rw [pagesLoop_zero] at h
      exact absurd h (by simp)
  | succ fuel ih =>
    intro imgs pages h
    cases imgs with
    | nil =>
      rw [pagesLoop_nil] at h
      simp only [Option.some.injEq, Except.ok.injEq] at h
      subst h
      simp
    | cons img rest =>
      rcases hmid : middleLoop W H pad pad (img :: rest) with e | ⟨ps, rem⟩
      · rw [pagesLoop_succ, hmid] at h
        exact absurd h (by simp)
      · rw [pagesLoop_succ, hmid] at h
        dsimp only at h
        rcases hrec : pagesLoop W H pad fuel rem with - | e | pages'
        · rw [hrec] at h
          exact absurd h (by simp)
        · rw [hrec] at h
          exact absurd h (by simp)
        · rw [hrec] at h
          dsimp only at h
          simp only [Option.some.injEq, Except.ok.injEq] at h
          subst h
          have h1 := middleLoop_ids W H pad pad (img :: rest) ps rem hmid
          have h2 := ih rem pages' hrec
          simp only [List.flatten_cons, List.map_append, h2, h1]

/-- With positive sizes, usable width and usable height positive, the outer
loop succeeds within fuel `length + 1`: every page consumes at least one
image. -/
theorem pagesLoop_total (W H pad : Int) (hW : 0 < W - 2 * pad)
    (hH : 2 * pad < H) :
    ∀ (fuel : Nat) (imgs : List ImgSize),
      imgs.length < fuel →
      (∀ i ∈ imgs, 1 ≤ i.w ∧ 1 ≤ i.h) →
      ∃ pages, pagesLoop W H pad fuel imgs = some (.ok pages) := by
  intro fuel
  induction fuel with
  | zero =>
    intro imgs hlen
    exact absurd hlen (by omega)
  | succ fuel ih =>
    intro imgs hlen hpos
    cases imgs with
    | nil => exact ⟨[], pagesLoop_nil W H pad (fuel + 1)⟩
    | cons img rest =>
      obtain ⟨ps, rem, hmid⟩ :=
        middleLoop_no_error W H pad hW pad (img :: rest) hpos
      have hprog : rem.length < (img :: rest).length :=
        middleLoop_progress (by omega) (by simp) hmid
      have hpos' : ∀ i ∈ rem, 1 ≤ i.w ∧ 1 ≤ i.h :=
        fun i hi => hpos i ((middleLoop_rem_sublist W H pad _ _ _ _ hmid).mem hi)
      have hlen' : rem.length < fuel := by
        simp only [List.length_cons] at hprog hlen
        omega
      obtain ⟨pages', hrec⟩ := ih rem hlen' hpos'
      refine ⟨ps :: pages', ?_⟩
      rw [pagesLoop_succ, hmid]
      dsimp only
      rw [hrec]

/-- Layout invariant of every produced page: placements within the padded
horizontal band, `y` between the top padding and the bottom padding line,
pairwise non-overlapping. -/
theorem pagesLoop_layout (W H pad : Int) (hpad : 0 ≤ pad) :
    ∀ (fuel : Nat) (imgs : List ImgSize) (pages : List (List Placement)),
      (∀ i ∈ imgs, 1 ≤ i.w ∧ 1 ≤ i.h) →
      pagesLoop W H pad fuel imgs = some (.ok pages) →
      ∀ pg ∈ pages,
        (∀ p ∈ pg, pad ≤ p.x ∧ p.x + p.w ≤ W - pad ∧ pad ≤ p.y ∧ p.y < H - pad) ∧
        pg.Pairwise (fun p q => ¬ overlaps p q) := by
  intro fuel
  induction fuel with
  | zero =>
    intro imgs pages hpos h
    cases imgs with
    | nil =>
      rw [pagesLoop_nil] at h
      simp only [Option.some.injEq, Except.ok.injEq] at h
      subst h
      simp
    | cons img rest =>
      rw [pagesLoop_zero] at h
      exact absurd h (by simp)
  | succ fuel ih =>
    intro imgs pages hpos h
    cases imgs with
    | nil =>
      rw [pagesLoop_nil] at h
      simp only [Option.some.injEq, Except.ok.injEq] at h
      subst h
      simp
    | cons img rest =>
      rcases hmid : middleLoop W H pad pad (img :: rest) with e | ⟨ps, rem⟩
      · rw [pagesLoop_succ, hmid] at h
        exact absurd h (by simp)
      · rw [pagesLoop_succ, hmid] at h
        dsimp only at h
        rcases hrec : pagesLoop W H pad fuel rem with - | e | pages'
        · rw [hrec] at h
          exact absurd h (by simp)
        · rw [hrec] at h
          exact absurd h (by simp)
        · rw [hrec] at h
          dsimp only at h
          simp only [Option.some.injEq, Except.ok.injEq] at h
          subst h
          intro pg hpg
          rcases List.mem_cons.mp hpg with rfl | hpg
          · obtain ⟨hb, hpw⟩ :=
              middleLoop_layout W H pad hpad pad (img :: rest) hpos pg rem hmid
            exact ⟨hb, hpw⟩
          · have hpos' : ∀ i ∈ rem, 1 ≤ i.w ∧ 1 ≤ i.h :=
              fun i hi => hpos i
                ((middleLoop_rem_sublist W H pad _ _ _ _ hmid).mem hi)
            exact ih rem pages' hpos' hrec pg hpg

/-- With positive usable height the outer loop terminates within fuel
`length + 1`, whether with a result or with an exception. -/
theorem pagesLoop_some (W H pad : Int) (hH : 2 * pad < H) :
    ∀ (fuel : Nat) (imgs : List ImgSize),
      imgs.length < fuel → (pagesLoop W H pad fuel imgs).isSome := by
  intro fuel
  induction fuel with
  | zero =>
    intro imgs hlen
    exact absurd hlen (by omega)
  | succ fuel ih =>
    intro imgs hlen
    cases imgs with
    | nil => rw [pagesLoop_nil]; rfl
    | cons img rest =>
      rcases hmid : middleLoop W H pad pad (img :: rest) with e | ⟨ps, rem⟩
      · rw [pagesLoop_succ, hmid]; rfl
      · have hprog : rem.length < (img :: rest).length :=
          middleLoop_progress (by omega) (by simp) hmid
        have hlen' : rem.length < fuel := by
          simp only [List.length_cons] at hprog hlen
          omega
        have hsome := ih rem hlen'
        rw [pagesLoop_succ, hmid]
        dsimp only
        rcases hrec : pagesLoop W H pad fuel rem with - | e | pages'
        · rw [hrec] at hsome; exact absurd hsome (by simp)
        · rfl
        · rfl

/-- When the usable height is not positive and images remain, the middle
loop's guard fails at once and the outer loop makes no progress: the Python
`while i < n` loop appends empty pages forever. -/
theorem pagesLoop_stuck {W H pad : Int} (hH : H - pad ≤ pad)
    (img : ImgSize) (rest : List ImgSize) :
    ∀ fuel : Nat, pagesLoop W H pad fuel (img :: rest) = none := by
  intro fuel
  induction fuel with
  | zero => rfl
  | succ fuel ih =>
    rw [pagesLoop_succ,
      middleLoop_eq_stop (by intro hc; have := hc.1; omega)]
    dsimp only
    rw [ih]

/-- The page count of a `pack_images_shelf` outcome: `some n` when the call
returns normally with `n` pages, `none` when it raises or diverges. -/
def numPages (r : Option (Except PackErr (List (List Placement)))) : Option Nat :=
  match r with
  | some (.ok pages) => some pages.length
  | _ => none

theorem fallback_cons (W pad y : Int) (ps : List Placement) (img : ImgSize)
    (rest : List ImgSize) :
    fallback W pad y ps (img :: rest) =
      if W - 2 * pad ≤ 0 then .error .configError
      else if img.w = 0 then .error .zeroDivError
      else
        .ok (ps ++ [⟨img.idx, pad, y,
          roundHalfEvenFrac (img.w * (W - 2 * pad)) img.w,
          roundHalfEvenFrac (img.h * (W - 2 * pad)) img.w⟩],
          roundHalfEvenFrac (img.h * (W - 2 * pad)) img.w, rest) := rfl

/-! ## The shelf-height sequence and the page-grouping of C9

The shelf grouping of `pack_images_shelf` does not depend on the vertical
cursor: `shelfStep`'s shelf height and remainder are the same at every `y`.
The page count is therefore the 1-dimensional greedy grouping `gLoop` of the
shelf-height sequence `shelfSeq`. -/

theorem shelfLoop_y_irrel (W pad y y' : Int) :
    ∀ (imgs : List ImgSize) (sx sh : Int),
      (shelfLoop W pad y imgs sx sh).2 = (shelfLoop W pad y' imgs sx sh).2 := by
  intro imgs
  induction imgs with
  | nil => intro sx sh; rfl
  | cons img rest ih =>
    intro sx sh
    rw [shelfLoop_cons, shelfLoop_cons]
    by_cases hfit : img.w + sx + pad ≤ W
    · rw [if_pos hfit, if_pos hfit]
      exact ih (sx + img.w + pad) (max sh img.h)
    · rw [if_neg hfit, if_neg hfit]

theorem shelfStep_y_irrel (W pad y y' : Int) (imgs : List ImgSize) :
    (shelfStep W pad y imgs).map (fun r => (r.2.1, r.2.2)) =
      (shelfStep W pad y' imgs).map (fun r => (r.2.1, r.2.2)) := by
  rw [shelfStep_def, shelfStep_def]
  have h2 := shelfLoop_y_irrel W pad y y' imgs pad 0
  rcases hsl : shelfLoop W pad y imgs pad 0 with ⟨ps0, sh0, rem0⟩
  rcases hsl' : shelfLoop W pad y' imgs pad 0 with ⟨ps0', sh0', rem0'⟩
  rw [hsl, hsl'] at h2
  simp only [Prod.mk.injEq] at h2
  obtain ⟨hsh, hrem⟩ := h2
  subst hsh hrem
  simp only
  by_cases hz : sh0 = 0
  · rw [if_pos hz, if_pos hz]
    cases rem0 with
    | nil => rfl
    | cons img rest =>
      rw [fallback_cons, fallback_cons]
      split
      · rfl
      · split
        · rfl
        · rfl
  · rw [if_neg hz, if_neg hz]
    simp [Except.map]

/-- The sequence of shelf heights the packing produces, independent of page
geometry in the vertical direction (computed at `y = 0`). -/
def shelfSeq (W pad : Int) (imgs : List ImgSize) : List Int :=
  match imgs with
  | [] => []
  | img :: rest =>
    match hstep : shelfStep W pad 0 (img :: rest) with
    | .error _ => []
    | .ok (_, sh, rem) => sh :: shelfSeq W pad rem
termination_by imgs.length
decreasing_by
  exact shelfStep_length hstep (by simp)

/-- The greedy grouping of a shelf-height sequence into pages: a shelf opens
on the current page when `y < H - pad`, otherwise on a fresh page. -/
def gLoop (H pad : Int) : List Int → Nat → Int → Nat
  | [], p, _ => p
  | h :: hs, p, y =>
    if y < H - pad then gLoop H pad hs p (y + h + pad)
    else gLoop H pad hs (p + 1) (pad + h + pad)

theorem shelfSeq_nil (W pad : Int) : shelfSeq W pad [] = [] := by
  rw [shelfSeq]

theorem shelfSeq_cons {W pad : Int} {imgs : List ImgSize}
    {ps : List Placement} {sh : Int} {rem : List ImgSize}
    (hne : imgs ≠ []) (h : shelfStep W pad 0 imgs = .ok (ps, sh, rem)) :
    shelfSeq W pad imgs = sh :: shelfSeq W pad rem := by
  cases imgs with
  | nil => exact absurd rfl hne
  | cons img rest =>
    rw [shelfSeq]
    split
    · rename_i heq
      rw [h] at heq
      cases heq
    · rename_i ps' sh' rem' heq
      rw [h] at heq
      injection heq with h1
      injection h1 with h2 h3
      injection h3 with h4 h5
      subst h4 h5
      rfl

theorem shelfStep_at_zero {W pad y : Int} {imgs : List ImgSize}
    {ps : List Placement} {sh : Int} {rem : List ImgSize}
    (h : shelfStep W pad y imgs = .ok (ps, sh, rem)) :
    ∃ ps0, shelfStep W pad 0 imgs = .ok (ps0, sh, rem) := by
  have hirr := shelfStep_y_irrel W pad y 0 imgs
  rw [h] at hirr
  rcases h0 : shelfStep W pad 0 imgs with e | ⟨ps0, sh0, rem0⟩ <;>
    rw [h0] at hirr <;> simp only [Except.map] at hirr
  · cases hirr
  · injection hirr with h1
    simp only [Prod.mk.injEq] at h1
    obtain ⟨hsh, hrem⟩ := h1
    subst hsh hrem
    exact ⟨ps0, rfl⟩

theorem shelfSeq_ne_nil {W pad : Int} {imgs : List ImgSize}
    (hne : imgs ≠ []) (hpos : ∀ i ∈ imgs, 1 ≤ i.w ∧ 1 ≤ i.h)
    (hW : 0 < W - 2 * pad) :
    shelfSeq W pad imgs ≠ [] := by
  obtain ⟨ps, sh, rem, hok⟩ := shelfStep_no_error (y := 0) hne hpos hW
  rw [shelfSeq_cons hne hok]
  simp

theorem gLoop_break {H pad : Int} (hpad : pad < H - pad) {y : Int}
    (hy : ¬ y < H - pad) (h : Int) (hs : List Int) (p : Nat) :
    gLoop H pad (h :: hs) p y = gLoop H pad (h :: hs) (p + 1) pad := by
  rw [gLoop, gLoop, if_neg hy, if_pos hpad]

/-- The page-consuming middle loop, read off the shelf-height sequence:
one run of the middle loop advances the greedy page grouping by exactly one
page (unless it finishes the input). -/
theorem middleLoop_gLoop (W H pad : Int) (hW : 0 < W - 2 * pad)
    (hH : pad < H - pad) :
    ∀ (y : Int) (imgs : List ImgSize),
      (∀ i ∈ imgs, 1 ≤ i.w ∧ 1 ≤ i.h) →
      ∀ (ps : List Placement) (rem : List ImgSize) (p : Nat),
        y < H - pad → imgs ≠ [] →
        middleLoop W H pad y imgs = .ok (ps, rem) →
        gLoop H pad (shelfSeq W pad imgs) p y =
          if rem = [] then p else gLoop H pad (shelfSeq W pad rem) (p + 1) pad := by
  intro y imgs
  induction y, imgs using middleLoop.induct W H pad with
  | case1 y imgs hc e hstep =>
    intro hpos ps rem p hy hne h
    rw [middleLoop_eq_err hc hstep] at h
    exact absurd h (by simp)
  | case2 y imgs hc ps sh rem hstep e hrec ih =>
    intro hpos ps0 rem0 p hy hne h
    rw [middleLoop_eq_ok hc hstep, hrec] at h
    exact absurd h (by simp)
  | case3 y imgs hc ps sh rem hstep ps' rem' hrec ih =>
    intro hpos ps0 rem0 p hy hne h
    rw [middleLoop_eq_ok hc hstep, hrec] at h
    simp only [Except.ok.injEq, Prod.mk.injEq] at h
    obtain ⟨-, hrem⟩ := h
    subst hrem
    obtain ⟨psz, hz⟩ := shelfStep_at_zero hstep
    rw [shelfSeq_cons hc.2 hz, gLoop, if_pos hy]
    have hpos' : ∀ i ∈ rem, 1 ≤ i.w ∧ 1 ≤ i.h :=
      fun i hi => hpos i ((shelfStep_suffix hstep).mem hi)
    by_cases hrne : rem = []
    · subst hrne
      rw [middleLoop_eq_stop (by simp)] at hrec
      injection hrec with h1
      simp only [Prod.mk.injEq] at h1
      obtain ⟨-, hrem'⟩ := h1
      rw [shelfSeq_nil, gLoop, ← hrem']
      simp
    · by_cases hy2 : y + sh + pad < H - pad
      · have := ih hpos' ps' rem' p hy2 hrne hrec
        rw [this]
      · rw [middleLoop_eq_stop (fun hcc => hy2 hcc.1)] at hrec
        injection hrec with h1
        simp only [Prod.mk.injEq] at h1
        obtain ⟨-, hrem'⟩ := h1
        subst hrem'
        rw [if_neg hrne]
        obtain ⟨h0, hs0, hseq⟩ :
            ∃ h0 hs0, shelfSeq W pad rem = h0 :: hs0 := by
          rcases hss : shelfSeq W pad rem with - | ⟨h0, hs0⟩
          · exact absurd hss (shelfSeq_ne_nil hrne hpos' hW)
          · exact ⟨h0, hs0, rfl⟩
        rw [hseq, gLoop_break hH hy2]
  | case4 y imgs hc =>
    intro hpos ps rem p hy hne h
    exact absurd ⟨hy, hne⟩ hc

/-- The page count of a successful `pagesLoop` run equals the greedy page
grouping of the shelf-height sequence. -/
theorem pagesLoop_gLoop (W H pad : Int) (hW : 0 < W - 2 * pad)
    (hH : pad < H - pad) :
    ∀ (fuel : Nat) (imgs : List ImgSize) (P : List (List Placement)) (p : Nat),
      (∀ i ∈ imgs, 1 ≤ i.w ∧ 1 ≤ i.h) → imgs ≠ [] →
      pagesLoop W H pad fuel imgs = some (.ok P) →
      gLoop H pad (shelfSeq W pad imgs) p pad = p + P.length - 1 := by
  intro fuel
  induction fuel with
  | zero =>
    intro imgs P p hpos hne h
    cases imgs with
    | nil => exact absurd rfl hne
    | cons img rest => exact absurd h (by rw [pagesLoop_zero]; simp)
  | succ fuel ih =>
    intro imgs P p hpos hne h
    cases imgs with
    | nil => exact absurd rfl hne
    | cons img rest =>
      rw [pagesLoop_succ] at h
      rcases hmid : middleLoop W H pad pad (img :: rest) with e | ⟨ps, rem⟩ <;>
        rw [hmid] at h
      · exact absurd h (by simp)
      · simp only at h
        rcases hrec : pagesLoop W H pad fuel rem with - | e | pages' <;>
          rw [hrec] at h
        · exact absurd h (by simp)
        · exact absurd h (by simp)
        · injection h with h1
          injection h1 with h2
          subst h2
          have hmain := middleLoop_gLoop W H pad hW hH pad (img :: rest) hpos
            ps rem p hH (by simp) hmid
          by_cases hrne : rem = []
          · subst hrne
            rw [pagesLoop_nil] at hrec
            injection hrec with h3
            injection h3 with h4
            subst h4
            rw [hmain]
            simp
          · have hpos' : ∀ i ∈ rem, 1 ≤ i.w ∧ 1 ≤ i.h := fun i hi =>
              hpos i ((middleLoop_rem_sublist W H pad _ _ _ _ hmid).mem hi)
            have := ih rem pages' (p + 1) hpos' hrne hrec
            rw [hmain, if_neg hrne, this]
            simp only [List.length_cons]
            omega

/-- Order-preserving embedding of one height sequence into another: every
element of the first sequence is matched, in order, by a greater-or-equal
element of the second, which may also contain extra (inserted) elements. -/
def hins : List Int → List Int → Prop
  | [], _ => True
  | _ :: _, [] => False
  | h :: t, h' :: t' => (h ≤ h' ∧ hins t t') ∨ hins (h :: t) t'
termination_by _ l => l.length

theorem hins_nil (l : List Int) : hins [] l := by
  cases l <;> rw [hins] <;> trivial

theorem hins_refl : ∀ l : List Int, hins l l := by
  intro l
  induction l with
  | nil => exact hins_nil []
  | cons h t ih => rw [hins]; exact Or.inl ⟨le_refl h, ih⟩

theorem hins_cons_of_le {h h' : Int} {t t' : List Int}
    (hle : h ≤ h') (hrec : hins t t') : hins (h :: t) (h' :: t') := by
  rw [hins]; exact Or.inl ⟨hle, hrec⟩

theorem hins_insert {l t' : List Int} (h' : Int)
    (hrec : hins l t') : hins l (h' :: t') := by
  cases l with
  | nil => exact hins_nil _
  | cons h t => rw [hins]; exact Or.inr hrec

theorem gLoop_ge (H pad : Int) :
    ∀ (hs : List Int) (p : Nat) (y : Int), p ≤ gLoop H pad hs p y := by
  intro hs
  induction hs with
  | nil => intro p y; exact le_refl p
  | cons h t ih =>
    intro p y
    rw [gLoop]
    split
    · exact ih p (y + h + pad)
    · exact (Nat.le_succ p).trans (ih (p + 1) (pad + h + pad))

/-- The greedy page grouping is monotone along `hins`: a sequence of
pointwise-smaller shelves with some shelves deleted, started from a
dominated cursor state, fills no more pages. -/
theorem gLoop_mono (H pad : Int) (hH : pad < H - pad) (hpad : 0 ≤ pad) :
    ∀ (hs' hs : List Int), hins hs hs' →
      (∀ h ∈ hs, 0 ≤ h) → (∀ h ∈ hs', 0 ≤ h) →
      ∀ (p p' : Nat) (y y' : Int), pad ≤ y → pad ≤ y' →
        (p < p' ∨ (p = p' ∧ y ≤ y')) →
        gLoop H pad hs p y ≤ gLoop H pad hs' p' y' := by
  intro hs'
  induction hs' with
  | nil =>
    intro hs hemb h1 h2 p p' y y' hy hy' hdom
    cases hs with
    | nil =>
      rw [gLoop, gLoop]
      rcases hdom with h | ⟨h, -⟩
      · exact le_of_lt h
      · exact le_of_eq h
    | cons h t => rw [hins] at hemb; exact absurd hemb (by simp)
  | cons h' t' ih =>
    intro hs hemb h1 h2 p p' y y' hy hy' hdom
    have hp : p ≤ p' := by rcases hdom with h | ⟨h, -⟩ <;> omega
    have hnn' : 0 ≤ h' := h2 h' (by simp)
    have ht2 : ∀ g ∈ t', 0 ≤ g := fun g hg => h2 g (by simp [hg])
    cases hs with
    | nil =>
      rw [gLoop]
      rw [gLoop]
      split
      · exact hp.trans (gLoop_ge H pad t' p' (y' + h' + pad))
      · exact hp.trans ((Nat.le_succ p').trans
          (gLoop_ge H pad t' (p' + 1) (pad + h' + pad)))
    | cons h t =>
      have hnn : 0 ≤ h := h1 h (by simp)
      have ht1 : ∀ g ∈ t, 0 ≤ g := fun g hg => h1 g (by simp [hg])
      rw [hins] at hemb
      rcases hemb with ⟨hle, hrec⟩ | hins_t'
      · rw [gLoop, gLoop]
        by_cases hg : y < H - pad <;> by_cases hg' : y' < H - pad
        · rw [if_pos hg, if_pos hg']
          refine ih t hrec ht1 ht2 p p' _ _ (by omega) (by omega) ?_
          rcases hdom with hlt | ⟨heq, hyy⟩
          · exact Or.inl hlt
          · exact Or.inr ⟨heq, by omega⟩
        · rw [if_pos hg, if_neg hg']
          refine ih t hrec ht1 ht2 p (p' + 1) _ _ (by omega) (by omega) ?_
          exact Or.inl (by omega)
        · rw [if_neg hg, if_pos hg']
          rcases hdom with hlt | ⟨heq, hyy⟩
          · refine ih t hrec ht1 ht2 (p + 1) p' _ _ (by omega) (by omega) ?_
            rcases Nat.lt_or_ge (p + 1) p' with hpp | hpp
            · exact Or.inl hpp
            · exact Or.inr ⟨by omega, by omega⟩
          · exact absurd (lt_of_le_of_lt hyy hg') hg
        · rw [if_neg hg, if_neg hg']
          refine ih t hrec ht1 ht2 (p + 1) (p' + 1) _ _ (by omega) (by omega) ?_
          rcases Nat.lt_or_ge (p + 1) (p' + 1) with hpp | hpp
          · exact Or.inl hpp
          · exact Or.inr ⟨by omega, by omega⟩
      · conv_rhs => rw [gLoop]
        split
        · refine ih (h :: t) hins_t' h1 ht2 p p' y _ hy (by omega) ?_
          rcases hdom with hlt | ⟨heq, hyy⟩
          · exact Or.inl hlt
          · exact Or.inr ⟨heq, by omega⟩
        · refine ih (h :: t) hins_t' h1 ht2 p (p' + 1) y _ hy (by omega) ?_
          exact Or.inl (by omega)

/-! ## Claims -/

/-- C1 (Completeness of packing): for every finite input list of sizes with
positive widths and heights and every configuration with
`pageWidth > 2*padding`, `pageHeight > 2*padding` (and non-negative padding,
per the configuration contract), `pack_images_shelf` returns normally and the
ids of the placements across all pages, read in order, are exactly the input
ids: in particular the multisets coincide and each input id appears exactly
once. -/
theorem C1_completeness (sizes : List ImgSize) (W H pad : Int)
    (hpad : 0 ≤ pad) (hW : 2 * pad < W) (hH : 2 * pad < H)
    (hpos : ∀ i ∈ sizes, 1 ≤ i.w ∧ 1 ≤ i.h) :
    ∃ pages, pack_images_shelf sizes W H pad = some (.ok pages) ∧
      pages.flatten.map Placement.idx = sizes.map ImgSize.idx ∧
      (pages.flatten.map Placement.idx : Multiset Nat) =
        (sizes.map ImgSize.idx : Multiset Nat) := by
  obtain ⟨pages, hp⟩ := pagesLoop_total W H pad (by omega) hH
    (sizes.length + 1) sizes (by omega) hpos
  have hids := pagesLoop_ids W H pad _ _ _ hp
  exact ⟨pages, hp, hids, by rw [hids]⟩

theorem C1_completeness_witness :
    (0:Int) ≤ 10 ∧ 2 * 10 < (300:Int) ∧ 2 * 10 < (300:Int) ∧
    (∀ i ∈ [(⟨100,100,0⟩ : ImgSize), ⟨100,100,1⟩, ⟨100,100,2⟩],
      1 ≤ i.w ∧ 1 ≤ i.h) ∧
    (∃ pages, pack_images_shelf [⟨100,100,0⟩, ⟨100,100,1⟩, ⟨100,100,2⟩]
        300 300 10 = some (.ok pages) ∧
      pages.flatten.map Placement.idx =
        ([⟨100,100,0⟩, ⟨100,100,1⟩, ⟨100,100,2⟩] : List ImgSize).map
          ImgSize.idx ∧
      (pages.flatten.map Placement.idx : Multiset Nat) =
        (([⟨100,100,0⟩, ⟨100,100,1⟩, ⟨100,100,2⟩] : List ImgSize).map
          ImgSize.idx : Multiset Nat)) :=
  ⟨by decide, by decide, by decide, by decide,
    C1_completeness [⟨100,100,0⟩, ⟨100,100,1⟩, ⟨100,100,2⟩] 300 300 10
      (by decide) (by decide) (by decide) (by decide)⟩

/-- C2 (Non-overlap): for every input with positive widths and heights and
every configuration with `pageWidth > 2*padding`, `pageHeight > 2*padding`,
`padding ≥ 0`, any two distinct placements of the returned packing that lie
on the same page have disjoint open interiors. -/
theorem C2_non_overlap (sizes : List ImgSize) (W H pad : Int)
    (hpad : 0 ≤ pad) (hW : 2 * pad < W) (hH : 2 * pad < H)
    (hpos : ∀ i ∈ sizes, 1 ≤ i.w ∧ 1 ≤ i.h) :
    ∀ pages, pack_images_shelf sizes W H pad = some (.ok pages) →
      ∀ pg ∈ pages, pg.Pairwise (fun p q => ¬ overlaps p q) := by
  intro pages hp pg hpg
  exact (pagesLoop_layout W H pad hpad _ _ _ hpos hp pg hpg).2

theorem C2_non_overlap_witness :
    (0:Int) ≤ 10 ∧
    (∀ pages,
      pack_images_shelf [⟨100,100,0⟩, ⟨100,100,1⟩, ⟨100,100,2⟩] 300 300 10 =
        some (.ok pages) →
      ∀ pg ∈ pages, pg.Pairwise (fun p q => ¬ overlaps p q)) :=
  ⟨by decide,
    C2_non_overlap [⟨100,100,0⟩, ⟨100,100,1⟩, ⟨100,100,2⟩] 300 300 10
      (by decide) (by decide) (by decide) (by decide)⟩

/-- C3 counterexample: a single image of size `(100, 400)` on page
`(300, 300)` with padding `10` fits horizontally, so it is placed by the
normal shelf branch (not the fallback: its width `100` is below the usable
width `280` and the placement keeps width `100`), at `(10, 10)` with height
`400`; its bottom edge `10 + 400` exceeds `pageHeight - padding = 290`,
refuting `p.y + p.height ≤ H - pad` for non-fallback placements. -/
theorem C3_containment_counterexample :
    pack_images_shelf [⟨100,400,0⟩] 300 300 10 =
      some (.ok [[⟨0, 10, 10, 100, 400⟩]]) ∧
    ¬ ((10:Int) + 400 ≤ 300 - 10) := by
  constructor
  · simp [pack_images_shelf, pagesLoop, middleLoop, shelfStep, shelfLoop,
      fallback]
  · decide

/-- C3 amended (Containment): with positive sizes and non-negative padding,
every placement of the returned packing — the fallback placements included —
satisfies `p.x ≥ pad`, `p.y ≥ pad`, `p.x + p.width ≤ W - pad`, and
`p.y < H - pad` (the top edge stays above the bottom padding line; the bottom
edge `p.y + p.height` may exceed `H - pad` when an image is taller than the
remaining usable height, an overflow the code accepts by design). -/
theorem C3_containment_amended (sizes : List ImgSize) (W H pad : Int)
    (hpad : 0 ≤ pad) (hpos : ∀ i ∈ sizes, 1 ≤ i.w ∧ 1 ≤ i.h) :
    ∀ pages, pack_images_shelf sizes W H pad = some (.ok pages) →
      ∀ pg ∈ pages, ∀ p ∈ pg,
        pad ≤ p.x ∧ p.x + p.w ≤ W - pad ∧ pad ≤ p.y ∧ p.y < H - pad := by
  intro pages hp pg hpg p hpl
  exact (pagesLoop_layout W H pad hpad _ _ _ hpos hp pg hpg).1 p hpl

theorem C3_containment_amended_witness :
    (0:Int) ≤ 10 ∧
    (∀ pages,
      pack_images_shelf [⟨100,400,0⟩] 300 300 10 = some (.ok pages) →
      ∀ pg ∈ pages, ∀ p ∈ pg,
        10 ≤ p.x ∧ p.x + p.w ≤ 300 - 10 ∧ 10 ≤ p.y ∧ p.y < 300 - 10) :=
  ⟨by decide,
    C3_containment_amended [⟨100,400,0⟩] 300 300 10 (by decide) (by decide)⟩

/-- C4 counterexample: input `[(5,5,0)]` with `pageWidth = pageHeight = 10`,
`padding = 10` — positive page dimensions, non-negative padding, non-negative
sizes — makes the middle loop's guard `y < page_h_px - padding` false from the
start, so every outer iteration appends an empty page without consuming any
image: the Python `while i < n` loop never terminates.  In the embedding, no
amount of fuel produces a result. -/
theorem C4_termination_counterexample :
    pack_images_shelf [⟨5,5,0⟩] 10 10 10 = none ∧
    ¬ ∃ (fuel : Nat) (r : Except PackErr (List (List Placement))),
        pagesLoop 10 10 10 fuel [⟨5,5,0⟩] = some r := by
  constructor
  · exact pagesLoop_stuck (by omega) _ _ 2
  · rintro ⟨fuel, r, h⟩
    rw [pagesLoop_stuck (by omega) _ _ fuel] at h
    cases h

/-- C4 amended (Termination and forward progress): under the claim's
hypotheses plus the missing condition `pageHeight > 2*padding` (without it
the loop diverges, see the counterexample), `pack_images_shelf` terminates
within `N + 1` outer iterations (the embedding's fuel `length + 1` suffices),
and every shelf step on a non-empty list places at least one image —
hence a terminating run takes at most `N` shelf-steps for `N` images. -/
theorem C4_termination_amended (sizes : List ImgSize) (W H pad : Int)
    (hW : 0 < W) (hH0 : 0 < H) (hpad : 0 ≤ pad)
    (hdim : ∀ i ∈ sizes, 0 ≤ i.w ∧ 0 ≤ i.h)
    (hH : 2 * pad < H) :
    (pack_images_shelf sizes W H pad).isSome = true ∧
    (∀ (y : Int) (l : List ImgSize) (ps : List Placement) (sh : Int)
        (rem : List ImgSize),
      l ≠ [] → shelfStep W pad y l = .ok (ps, sh, rem) →
      ps ≠ [] ∧ rem.length < l.length) := by
  constructor
  · exact pagesLoop_some W H pad hH _ _ (by omega)
  · intro y l ps sh rem hne hstep
    exact ⟨shelfStep_placed_ne hstep hne, shelfStep_length hstep hne⟩

theorem C4_termination_amended_witness :
    (0:Int) < 300 ∧ (0:Int) < 300 ∧ (0:Int) ≤ 10 ∧
    (∀ i ∈ [(⟨100,100,0⟩ : ImgSize)], 0 ≤ i.w ∧ 0 ≤ i.h) ∧
    2 * 10 < (300:Int) ∧
    ((pack_images_shelf [⟨100,100,0⟩] 300 300 10).isSome = true ∧
     (∀ (y : Int) (l : List ImgSize) (ps : List Placement) (sh : Int)
         (rem : List ImgSize),
       l ≠ [] → shelfStep 300 10 y l = .ok (ps, sh, rem) →
       ps ≠ [] ∧ rem.length < l.length)) :=
  ⟨by decide, by decide, by decide, by decide, by decide,
    C4_termination_amended [⟨100,100,0⟩] 300 300 10
      (by decide) (by decide) (by decide) (by decide) (by decide)⟩

/-- C5 counterexample: the five `(250, 50)` images on page `(300, 300)` with
padding `10` yield ONE page, not two.  The middle loop's guard only tests the
shelf's top edge (`y < 290`), and the shelves start at `y = 10, 70, 130, 190,
250`, all below `290`, so all five shelves land on page 1 (the last one
overflowing the bottom padding zone). -/
theorem C5_scenarioC_counterexample :
    numPages (pack_images_shelf
      [⟨250,50,0⟩, ⟨250,50,1⟩, ⟨250,50,2⟩, ⟨250,50,3⟩, ⟨250,50,4⟩]
      300 300 10) ≠ some 2 ∧
    numPages (pack_images_shelf
      [⟨250,50,0⟩, ⟨250,50,1⟩, ⟨250,50,2⟩, ⟨250,50,3⟩, ⟨250,50,4⟩]
      300 300 10) = some 1 := by
  have h : pack_images_shelf
      [⟨250,50,0⟩, ⟨250,50,1⟩, ⟨250,50,2⟩, ⟨250,50,3⟩, ⟨250,50,4⟩]
      300 300 10 =
      some (.ok [[⟨0,10,10,250,50⟩, ⟨1,10,70,250,50⟩, ⟨2,10,130,250,50⟩,
        ⟨3,10,190,250,50⟩, ⟨4,10,250,250,50⟩]]) := by
    simp [pack_images_shelf, pagesLoop, middleLoop, shelfStep, shelfLoop,
      fallback]
  rw [h]
  constructor
  · decide
  · rfl

/-- C5 amended (Scenario C): 5 input sizes `(250, 50)` on page `(300, 300)`
with padding `10` produce one single page with five one-image shelves at
`y = 10, 70, 130, 190, 250`, each placement at `x = 10` with size
`250 × 50`. -/
theorem C5_scenarioC_amended :
    pack_images_shelf
      [⟨250,50,0⟩, ⟨250,50,1⟩, ⟨250,50,2⟩, ⟨250,50,3⟩, ⟨250,50,4⟩]
      300 300 10 =
      some (.ok [[⟨0,10,10,250,50⟩, ⟨1,10,70,250,50⟩, ⟨2,10,130,250,50⟩,
        ⟨3,10,190,250,50⟩, ⟨4,10,250,250,50⟩]]) := by
  simp [pack_images_shelf, pagesLoop, middleLoop, shelfStep, shelfLoop,
    fallback]

/-- C6 counterexample: with `pageWidth = 20`, `padding = 10` the usable width
`pageWidth - 2*padding` is `0 ≤ 0`, yet on the (normalizer-reachable)
zero-width input `[(0, 5, 0)]` the call does not raise at all: the zero-width
image satisfies the fit test `0 + 10 + 10 ≤ 20` and is placed.  No
configuration error is reported, and a zero-width placement is produced —
exactly what the claim rules out. -/
theorem C6_config_error_counterexample :
    ((20:Int) - 2 * 10 ≤ 0) ∧
    pack_images_shelf [⟨0,5,0⟩] 20 300 10 = some (.ok [[⟨0,10,10,0,5⟩]]) := by
  constructor
  · decide
  · simp [pack_images_shelf, pagesLoop, middleLoop, shelfStep, shelfLoop,
      fallback]

/-- C6 amended (Configuration error): for a non-empty input with positive
widths (the data model's `NormalizedSize`), if `pageWidth - 2*padding ≤ 0`
and additionally `pageHeight > 2*padding` (without the latter the loop
diverges instead of raising, and with zero-width inputs the image is placed
instead — see the counterexample), then `pack_images_shelf` raises the
configuration error, and it does so before any placement is produced: the
first shelf's inner loop places nothing. -/
theorem C6_config_error_amended (sizes : List ImgSize) (W H pad : Int)
    (hne : sizes ≠ []) (hw : ∀ i ∈ sizes, 1 ≤ i.w)
    (hcfg : W - 2 * pad ≤ 0) (hH : 2 * pad < H) :
    pack_images_shelf sizes W H pad = some (.error .configError) ∧
    shelfLoop W pad pad sizes pad 0 = ([], 0, sizes) := by
  cases sizes with
  | nil => exact absurd rfl hne
  | cons img rest =>
    have hw1 : 1 ≤ img.w := hw img (by simp)
    have hsl : shelfLoop W pad pad (img :: rest) pad 0 = ([], 0, img :: rest) := by
      rw [shelfLoop_cons, if_neg (by omega)]
    have hstep : shelfStep W pad pad (img :: rest) = .error .configError := by
      rw [shelfStep_def, hsl]
      dsimp only
      rw [if_pos rfl]
      show fallback W pad pad [] (img :: rest) = .error .configError
      rw [fallback, if_pos hcfg]
    have hmid : middleLoop W H pad pad (img :: rest) = .error .configError :=
      middleLoop_eq_err ⟨by omega, by simp⟩ hstep
    refine ⟨?_, hsl⟩
    show pagesLoop W H pad ((img :: rest).length + 1) (img :: rest) = _
    rw [show (img :: rest).length + 1 = (rest.length + 1) + 1 by simp,
      pagesLoop_succ, hmid]

theorem C6_config_error_amended_witness :
    ([(⟨5,5,0⟩ : ImgSize)] ≠ []) ∧
    (∀ i ∈ [(⟨5,5,0⟩ : ImgSize)], 1 ≤ i.w) ∧
    ((20:Int) - 2 * 10 ≤ 0) ∧ (2 * 10 < (300:Int)) ∧
    (pack_images_shelf [⟨5,5,0⟩] 20 300 10 = some (.error .configError) ∧
     shelfLoop 20 10 10 [⟨5,5,0⟩] 10 0 = ([], 0, [⟨5,5,0⟩])) :=
  ⟨by decide, by decide, by decide, by decide,
    C6_config_error_amended [⟨5,5,0⟩] 20 300 10
      (by decide) (by decide) (by decide) (by decide)⟩

/-- C8 counterexample: three `(100, 100)` images on page `(300, 300)` with
padding `10` do NOT fit on a single shelf: the third image's fit test is
`100 + 230 + 10 ≤ 300`, which fails, so it moves to a second shelf at
`(10, 120)`.  The layout claimed by the scenario (all three at `y = 10`,
`x = 10, 120, 230`) is not what the code produces. -/
theorem C8_scenarioA_counterexample :
    pack_images_shelf [⟨100,100,0⟩, ⟨100,100,1⟩, ⟨100,100,2⟩] 300 300 10 ≠
      some (.ok [[⟨0,10,10,100,100⟩, ⟨1,120,10,100,100⟩,
        ⟨2,230,10,100,100⟩]]) ∧
    pack_images_shelf [⟨100,100,0⟩, ⟨100,100,1⟩, ⟨100,100,2⟩] 300 300 10 =
      some (.ok [[⟨0,10,10,100,100⟩, ⟨1,120,10,100,100⟩,
        ⟨2,10,120,100,100⟩]]) := by
  have h : pack_images_shelf [⟨100,100,0⟩, ⟨100,100,1⟩, ⟨100,100,2⟩]
      300 300 10 =
      some (.ok [[⟨0,10,10,100,100⟩, ⟨1,120,10,100,100⟩,
        ⟨2,10,120,100,100⟩]]) := by
    simp [pack_images_shelf, pagesLoop, middleLoop, shelfStep, shelfLoop,
      fallback]
  rw [h]
  exact ⟨by decide, rfl⟩

/-- C8 amended (Scenario A): three `(100, 100)` images on page `(300, 300)`
with padding `10` produce one page with two shelves: the first two images at
`(10, 10)` and `(120, 10)`, the third on a second shelf at `(10, 120)`. -/
theorem C8_scenarioA_amended :
    pack_images_shelf [⟨100,100,0⟩, ⟨100,100,1⟩, ⟨100,100,2⟩] 300 300 10 =
      some (.ok [[⟨0,10,10,100,100⟩, ⟨1,120,10,100,100⟩,
        ⟨2,10,120,100,100⟩]]) := by
  simp [pack_images_shelf, pagesLoop, middleLoop, shelfStep, shelfLoop,
    fallback]

/-- C10 counterexample: on the non-negative input `[(10, 0, 0)]` (zero
height), page `(300, 300)`, padding `10`, the single image is placed by the
inner loop but `shelf_height` stays `0`, so the fallback branch is entered
with `i = n` and the read `images_sizes[i]` is out of bounds: the Python call
raises `IndexError`.  The claim's bound-safety assertion fails for
non-negative (as opposed to positive) heights. -/
theorem C10_fallback_safety_counterexample :
    (∀ i ∈ [(⟨10,0,0⟩ : ImgSize)], 0 ≤ i.w ∧ 0 ≤ i.h) ∧
    pack_images_shelf [⟨10,0,0⟩] 300 300 10 = some (.error .indexError) := by
  constructor
  · decide
  · simp [pack_images_shelf, pagesLoop, middleLoop, shelfStep, shelfLoop,
      fallback]

theorem shelfStep_no_index {W pad y : Int} {imgs : List ImgSize}
    (hh : ∀ i ∈ imgs, 1 ≤ i.h) (hne : imgs ≠ []) :
    shelfStep W pad y imgs ≠ .error .indexError := by
  rw [shelfStep_def]
  by_cases hz : (shelfLoop W pad y imgs pad 0).2.1 = 0
  · rw [if_pos hz]
    have h0 := shelfLoop_sh_zero hh hz
    rw [h0]
    dsimp only
    cases imgs with
    | nil => exact absurd rfl hne
    | cons img rest =>
      rw [fallback_cons]
      split
      · simp
      · split
        · simp
        · simp
  · rw [if_neg hz]
    simp

theorem middleLoop_no_index (W H pad : Int) :
    ∀ (y : Int) (imgs : List ImgSize),
      (∀ i ∈ imgs, 1 ≤ i.h) →
      middleLoop W H pad y imgs ≠ .error .indexError := by
  intro y imgs
  induction y, imgs using middleLoop.induct W H pad with
  | case1 y imgs hc e hstep =>
    intro hh h
    rw [middleLoop_eq_err hc hstep] at h
    injection h with h1
    subst h1
    exact shelfStep_no_index hh hc.2 hstep
  | case2 y imgs hc ps sh rem hstep e hrec ih =>
    intro hh h
    have hh' : ∀ i ∈ rem, 1 ≤ i.h :=
      fun i hi => hh i ((shelfStep_suffix hstep).mem hi)
    rw [middleLoop_eq_ok hc hstep, hrec] at h
    injection h with h1
    subst h1
    exact ih hh' hrec
  | case3 y imgs hc ps sh rem hstep ps' rem' hrec ih =>
    intro hh h
    rw [middleLoop_eq_ok hc hstep, hrec] at h
    cases h
  | case4 y imgs hc =>
    intro hh h
    rw [middleLoop_eq_stop hc] at h
    cases h

theorem pagesLoop_no_index (W H pad : Int) :
    ∀ (fuel : Nat) (imgs : List ImgSize),
      (∀ i ∈ imgs, 1 ≤ i.h) →
      ∀ r, pagesLoop W H pad fuel imgs = some r → r ≠ .error .indexError := by
  intro fuel
  induction fuel with
  | zero =>
    intro imgs hh r h
    cases imgs with
    | nil =>
      rw [pagesLoop_nil] at h
      simp only [Option.some.injEq] at h
      subst h
      simp
    | cons img rest =>
      rw [pagesLoop_zero] at h
      cases h
  | succ fuel ih =>
    intro imgs hh r h
    cases imgs with
    | nil =>
      rw [pagesLoop_nil] at h
      simp only [Option.some.injEq] at h
      subst h
      simp
    | cons img rest =>
      rcases hmid : middleLoop W H pad pad (img :: rest) with e | ⟨ps, rem⟩
      · rw [pagesLoop_succ, hmid] at h
        simp only [Option.some.injEq] at h
        subst h
        intro he
        injection he with h1
        subst h1
        exact middleLoop_no_index W H pad pad (img :: rest) hh hmid
      · rw [pagesLoop_succ, hmid] at h
        dsimp only at h
        have hh' : ∀ i ∈ rem, 1 ≤ i.h :=
          fun i hi => hh i
            ((middleLoop_rem_sublist W H pad _ _ _ _ hmid).mem hi)
        rcases hrec : pagesLoop W H pad fuel rem with - | e | pages'
        · rw [hrec] at h
          cases h
        · rw [hrec] at h
          simp only [Option.some.injEq] at h
          subst h
          exact ih rem hh' _ hrec
        · rw [hrec] at h
          simp only [Option.some.injEq] at h
          subst h
          simp

/-- C10 amended (Implicit safety of the fallback branch): for inputs with
positive heights (the data model's `NormalizedSize`; for merely non-negative
heights the counterexample shows an `IndexError`), `pack_images_shelf` never
raises `IndexError` — the fallback's read of `images_sizes[i]` is always in
bounds — and a shelf whose height is `0` after the inner loop indeed placed
no image and left the image list untouched. -/
theorem C10_fallback_safety_amended (sizes : List ImgSize) (W H pad : Int)
    (hh : ∀ i ∈ sizes, 1 ≤ i.h) :
    (∀ r, pack_images_shelf sizes W H pad = some r →
      r ≠ .error .indexError) ∧
    (∀ (y sx : Int) (l : List ImgSize), (∀ i ∈ l, 1 ≤ i.h) →
      (shelfLoop W pad y l sx 0).2.1 = 0 →
      (shelfLoop W pad y l sx 0).1 = [] ∧ (shelfLoop W pad y l sx 0).2.2 = l) := by
  constructor
  · intro r h
    exact pagesLoop_no_index W H pad _ _ hh r h
  · intro y sx l hl hz
    have h0 := shelfLoop_sh_zero hl hz
    rw [h0]
    exact ⟨rfl, rfl⟩

theorem C10_fallback_safety_amended_witness :
    (∀ i ∈ [(⟨10,7,0⟩ : ImgSize)], 1 ≤ i.h) ∧
    ((∀ r, pack_images_shelf [⟨10,7,0⟩] 300 300 10 = some r →
        r ≠ .error .indexError) ∧
     (∀ (y sx : Int) (l : List ImgSize), (∀ i ∈ l, 1 ≤ i.h) →
        (shelfLoop 300 10 y l sx 0).2.1 = 0 →
        (shelfLoop 300 10 y l sx 0).1 = [] ∧
          (shelfLoop 300 10 y l sx 0).2.2 = l)) :=
  ⟨by decide,
    C10_fallback_safety_amended [⟨10,7,0⟩] 300 300 10 (by decide)⟩

/-! ## The rational-number specification of the rounding and normalization -/

/-- The integer-fraction rounding agrees with the rational-number
round-half-to-even for positive denominators. -/
theorem roundHalfEvenFrac_eq {a b : Int} (hb : 0 < b) :
    roundHalfEvenFrac a b = roundHalfEven ((a : ℚ) / (b : ℚ)) := by
  have hbQ : (0:ℚ) < (b:ℚ) := by exact_mod_cast hb
  have hfl : ⌊(a : ℚ) / (b : ℚ)⌋ = a.fdiv b := by
    have h1 : ((b.toNat : ℕ) : ℚ) = (b : ℚ) := by
      have := Int.toNat_of_nonneg (le_of_lt hb)
      exact_mod_cast congrArg (fun z : Int => (z : ℚ)) this
    have h2 := Rat.floor_intCast_div_natCast a b.toNat
    rw [h1] at h2
    rw [h2, Int.fdiv_eq_ediv a (le_of_lt hb)]
    congr 1
    exact Int.toNat_of_nonneg (le_of_lt hb)
  set f := a.fdiv b with hf
  have hr : (a : ℚ) / (b : ℚ) - (f : ℚ) = ((a - f * b : Int) : ℚ) / (b : ℚ) := by
    push_cast
    field_simp
    ring
  have key1 : ∀ x : Int, ((x : ℚ) < 1/2 * (b:ℚ)) ↔ (2 * x < b) := by
    intro x
    constructor
    · intro h
      have h2 : ((2 * x : Int) : ℚ) < (b : ℚ) := by push_cast; linarith
      exact_mod_cast h2
    · intro h
      have h2 : ((2 * x : Int) : ℚ) < (b : ℚ) := by exact_mod_cast h
      push_cast at h2
      linarith
  have key2 : ∀ x : Int, (1/2 * (b:ℚ) < (x : ℚ)) ↔ (b < 2 * x) := by
    intro x
    constructor
    · intro h
      have h2 : (b : ℚ) < ((2 * x : Int) : ℚ) := by push_cast; linarith
      exact_mod_cast h2
    · intro h
      have h2 : (b : ℚ) < ((2 * x : Int) : ℚ) := by exact_mod_cast h
      push_cast at h2
      linarith
  have hlt : ((a : ℚ) / (b : ℚ) - (f : ℚ) < 1/2) ↔ (2 * (a - f * b) < b) := by
    rw [hr, div_lt_iff hbQ]
    exact key1 (a - f * b)
  have hgt : (1/2 < (a : ℚ) / (b : ℚ) - (f : ℚ)) ↔ (b < 2 * (a - f * b)) := by
    rw [hr, lt_div_iff hbQ]
    exact key2 (a - f * b)
  unfold roundHalfEvenFrac roundHalfEven
  rw [if_neg (by omega)]
  simp only [if_neg (by omega : ¬ b < 0), hfl, ← hf]
  by_cases h1 : 2 * (a - f * b) < b
  · rw [if_pos h1, if_pos (hlt.mpr h1)]
  · rw [if_neg h1, if_neg (fun hc => h1 (hlt.mp hc))]
    by_cases h2 : b < 2 * (a - f * b)
    · rw [if_pos h2, if_pos (hgt.mpr h2)]
    · rw [if_neg h2, if_neg (fun hc => h2 (hgt.mp hc))]

theorem minFrac_denom_pos {p q : Int × Int} (hp : 0 < p.2) (hq : 0 < q.2) :
    0 < (minFrac p q).2 := by
  unfold minFrac
  split <;> assumption

theorem minFrac_val {p q : Int × Int} (hp : 0 < p.2) (hq : 0 < q.2) :
    ((minFrac p q).1 : ℚ) / ((minFrac p q).2 : ℚ) =
      min ((p.1 : ℚ) / (p.2 : ℚ)) ((q.1 : ℚ) / (q.2 : ℚ)) := by
  have hpQ : (0:ℚ) < (p.2:ℚ) := by exact_mod_cast hp
  have hqQ : (0:ℚ) < (q.2:ℚ) := by exact_mod_cast hq
  have hiff : (p.1 : ℚ) / (p.2 : ℚ) ≤ (q.1 : ℚ) / (q.2 : ℚ) ↔
      p.1 * q.2 ≤ q.1 * p.2 := by
    rw [div_le_div_iff hpQ hqQ]
    constructor
    · intro h; exact_mod_cast h
    · intro h; exact_mod_cast h
  unfold minFrac
  by_cases hc : p.1 * q.2 ≤ q.1 * p.2
  · rw [if_pos hc]
    exact (min_eq_left (hiff.mpr hc)).symm
  · rw [if_neg hc]
    exact (min_eq_right (le_of_not_le (fun hh => hc (hiff.mp hh)))).symm

theorem roundHalfEven_nonneg {q : ℚ} (h : 0 ≤ q) : 0 ≤ roundHalfEven q := by
  unfold roundHalfEven
  dsimp only
  have hf : (0:Int) ≤ ⌊q⌋ := Int.floor_nonneg.mpr h
  split
  · exact hf
  · split
    · omega
    · split <;> omega

/-- Rounding never exceeds an integer bound the argument respects. -/
theorem roundHalfEven_le_of_le {q : ℚ} {n : Int} (h : q ≤ (n : ℚ)) :
    roundHalfEven q ≤ n := by
  unfold roundHalfEven
  dsimp only
  have hf : ⌊q⌋ ≤ n := by
    have h2 := Int.floor_mono h
    rwa [Int.floor_intCast] at h2
  by_cases heq : ⌊q⌋ = n
  · have hfle := Int.floor_le q
    have hr : q - ((⌊q⌋ : Int) : ℚ) < 1/2 := by
      rw [heq] at hfle ⊢
      have h3 : q - (n : ℚ) ≤ 0 := by linarith
      linarith
    rw [if_pos hr]
    omega
  · have hf' : ⌊q⌋ + 1 ≤ n := by omega
    split
    · omega
    · split
      · omega
      · split <;> omega

/-- C7 counterexample: all inputs positive (`naturalWidth = 1`,
`naturalHeight = 1000`, usable bounds `maxWidth = 100`, `maxHeight = 1`),
`scale = min(1, 100/1, 1/1000) = 1/1000`, and the normalized width
`round(1 * 1/1000) = 0` — the claimed guarantee "each output dimension ≥ 1"
fails (the code has no lower clamp). -/
theorem C7_normalization_counterexample :
    ((0:Int) < 1 ∧ (0:Int) < 1000 ∧ (0:Int) < 100 ∧ (0:Int) < 1) ∧
    normalizeSize 100 1 1 1000 = (0, 1) ∧
    ¬ (1 ≤ (normalizeSize 100 1 1 1000).1) := by
  refine ⟨by decide, by decide, by decide⟩

/-- C7 amended (Size normalization): for positive natural dimensions and
positive usable bounds, the normalized size equals
`(round(w·scale), round(h·scale))` with
`scale = min(1, maxWidth/w, maxHeight/h)` computed in exact arithmetic and
`round` half-to-even as in Python 3; the image is never scaled up
(`scale ≤ 1`, and each output dimension is bounded by the natural one), and
each output dimension is ≥ 0 — but not ≥ 1, which the counterexample
refutes. -/
theorem C7_normalization_amended (max_w max_h w h : Int)
    (hw : 0 < w) (hh : 0 < h) (hmw : 0 < max_w) (hmh : 0 < max_h) :
    (normalizeSize max_w max_h w h).1 =
      roundHalfEven ((w : ℚ) *
        min 1 (min ((max_w : ℚ) / (w : ℚ)) ((max_h : ℚ) / (h : ℚ)))) ∧
    (normalizeSize max_w max_h w h).2 =
      roundHalfEven ((h : ℚ) *
        min 1 (min ((max_w : ℚ) / (w : ℚ)) ((max_h : ℚ) / (h : ℚ)))) ∧
    min 1 (min ((max_w : ℚ) / (w : ℚ)) ((max_h : ℚ) / (h : ℚ))) ≤ 1 ∧
    0 ≤ (normalizeSize max_w max_h w h).1 ∧
    0 ≤ (normalizeSize max_w max_h w h).2 ∧
    (normalizeSize max_w max_h w h).1 ≤ w ∧
    (normalizeSize max_w max_h w h).2 ≤ h := by
  have hwQ : (0:ℚ) < (w:ℚ) := by exact_mod_cast hw
  have hhQ : (0:ℚ) < (h:ℚ) := by exact_mod_cast hh
  set m : Int × Int := minFrac (minFrac (1, 1) (max_w, w)) (max_h, h) with hm
  have hns : normalizeSize max_w max_h w h =
      (roundHalfEvenFrac (w * m.1) m.2, roundHalfEvenFrac (h * m.1) m.2) := by
    unfold normalizeSize
    rw [if_pos hw, if_pos hh]
  have hm1pos : (0:Int) < (minFrac (1, 1) (max_w, w)).2 :=
    minFrac_denom_pos (by norm_num) hw
  have hm2 : (0:Int) < m.2 := minFrac_denom_pos hm1pos hh
  have hm2Q : (0:ℚ) < (m.2:ℚ) := by exact_mod_cast hm2
  have hval : (m.1 : ℚ) / (m.2 : ℚ) =
      min 1 (min ((max_w : ℚ) / (w : ℚ)) ((max_h : ℚ) / (h : ℚ))) := by
    rw [hm, minFrac_val hm1pos hh, minFrac_val (by norm_num) hw]
    norm_num [min_assoc]
  set scale : ℚ := min 1 (min ((max_w : ℚ) / (w : ℚ)) ((max_h : ℚ) / (h : ℚ)))
    with hscale
  have hs0 : 0 ≤ scale := by
    rw [hscale]
    refine le_min (by norm_num) (le_min ?_ ?_)
    · exact div_nonneg (by exact_mod_cast le_of_lt hmw) (le_of_lt hwQ)
    · exact div_nonneg (by exact_mod_cast le_of_lt hmh) (le_of_lt hhQ)
  have hs1 : scale ≤ 1 := min_le_left _ _
  have hfst : roundHalfEvenFrac (w * m.1) m.2 = roundHalfEven ((w:ℚ) * scale) := by
    rw [roundHalfEvenFrac_eq hm2]
    congr 1
    push_cast
    rw [mul_div_assoc, hval]
  have hsnd : roundHalfEvenFrac (h * m.1) m.2 = roundHalfEven ((h:ℚ) * scale) := by
    rw [roundHalfEvenFrac_eq hm2]
    congr 1
    push_cast
    rw [mul_div_assoc, hval]
  rw [hns]
  refine ⟨hfst, hsnd, hs1, ?_, ?_, ?_, ?_⟩
  · rw [hfst]
    exact roundHalfEven_nonneg (mul_nonneg (le_of_lt hwQ) hs0)
  · rw [hsnd]
    exact roundHalfEven_nonneg (mul_nonneg (le_of_lt hhQ) hs0)
  · rw [hfst]
    refine roundHalfEven_le_of_le ?_
    calc (w:ℚ) * scale ≤ (w:ℚ) * 1 :=
          mul_le_mul_of_nonneg_left hs1 (le_of_lt hwQ)
      _ = (w:ℚ) := mul_one _
  · rw [hsnd]
    refine roundHalfEven_le_of_le ?_
    calc (h:ℚ) * scale ≤ (h:ℚ) * 1 :=
          mul_le_mul_of_nonneg_left hs1 (le_of_lt hhQ)
      _ = (h:ℚ) := mul_one _

theorem C7_normalization_amended_witness :
    ((0:Int) < 100 ∧ (0:Int) < 100 ∧ (0:Int) < 284 ∧ (0:Int) < 284) ∧
    ((normalizeSize 284 284 100 100).1 =
      roundHalfEven ((100 : ℚ) *
        min 1 (min ((284 : ℚ) / (100 : ℚ)) ((284 : ℚ) / (100 : ℚ)))) ∧
     (normalizeSize 284 284 100 100).2 =
      roundHalfEven ((100 : ℚ) *
        min 1 (min ((284 : ℚ) / (100 : ℚ)) ((284 : ℚ) / (100 : ℚ)))) ∧
     min 1 (min ((284 : ℚ) / (100 : ℚ)) ((284 : ℚ) / (100 : ℚ))) ≤ 1 ∧
     0 ≤ (normalizeSize 284 284 100 100).1 ∧
     0 ≤ (normalizeSize 284 284 100 100).2 ∧
     (normalizeSize 284 284 100 100).1 ≤ 100 ∧
     (normalizeSize 284 284 100 100).2 ≤ 100) :=
  ⟨⟨by decide, by decide, by decide, by decide⟩,
    C7_normalization_amended 284 284 100 100
      (by decide) (by decide) (by decide) (by decide)⟩
/-! ## Shelf heights and shelf composition

Supporting facts for the monotonic-page-growth claim: how one shelf is
composed from the head of a sorted list, and how shelf remainders compare
when one run works on a suffix of the other's input with at least as much
free width on the open shelf. -/

theorem roundHalfEvenFrac_le_mul {h m w : Int} (hmw : m ≤ w) (hw : 0 < w)
    (hh : 0 ≤ h) : roundHalfEvenFrac (h * m) w ≤ h := by
  rw [roundHalfEvenFrac_eq hw]
  apply roundHalfEven_le_of_le
  rw [div_le_iff (by exact_mod_cast hw)]
  push_cast
  exact mul_le_mul_of_nonneg_left (by exact_mod_cast hmw) (by exact_mod_cast hh)

theorem shelfLoop_sh_bound (W pad y : Int) :
    ∀ (imgs : List ImgSize) (sx sh c : Int),
      (∀ i ∈ imgs, i.h ≤ c) → sh ≤ c →
      (shelfLoop W pad y imgs sx sh).2.1 ≤ c := by
  intro imgs
  induction imgs with
  | nil => intro sx sh c hall hsh; exact hsh
  | cons img rest ih =>
    intro sx sh c hall hsh
    rw [shelfLoop_cons]
    by_cases hfit : img.w + sx + pad ≤ W
    · rw [if_pos hfit]
      exact ih (sx + img.w + pad) (max sh img.h) c
        (fun i hi => hall i (by simp [hi]))
        (max_le hsh (hall img (by simp)))
    · rw [if_neg hfit]
      exact hsh

theorem shelfLoop_sh_const (W pad y : Int) (imgs : List ImgSize)
    (sx sh : Int) (hb : ∀ i ∈ imgs, i.h ≤ sh) :
    (shelfLoop W pad y imgs sx sh).2.1 = sh :=
  le_antisymm (shelfLoop_sh_bound W pad y imgs sx sh sh hb (le_refl sh))
    (shelfLoop_sh_le W pad y imgs sx sh)

/-- A head image too wide even for a fresh shelf forces the fallback branch,
which scales it to the usable width and consumes exactly that image. -/
theorem shelfStep_oversized {W pad y : Int} {z : ImgSize} {Z : List ImgSize}
    (hbig : ¬ (z.w + pad + pad ≤ W)) (hW : 0 < W - 2 * pad) (hzw : 0 < z.w) :
    shelfStep W pad y (z :: Z) =
      .ok ([⟨z.idx, pad, y, roundHalfEvenFrac (z.w * (W - 2 * pad)) z.w,
            roundHalfEvenFrac (z.h * (W - 2 * pad)) z.w⟩],
           roundHalfEvenFrac (z.h * (W - 2 * pad)) z.w, Z) := by
  rw [shelfStep_def, shelfLoop_cons, if_neg hbig]
  rw [if_pos rfl, fallback_cons, if_neg (by omega), if_neg (by omega)]
  simp

/-- A head image that fits a fresh shelf opens the shelf; with every later
image no taller, the shelf height is exactly the head's height. -/
theorem shelfStep_fits {W pad y : Int} {z : ImgSize} {Z : List ImgSize}
    (hfit : z.w + pad + pad ≤ W) (hzh : 1 ≤ z.h)
    (hall : ∀ i ∈ Z, i.h ≤ z.h) :
    shelfStep W pad y (z :: Z) =
      .ok (⟨z.idx, pad, y, z.w, z.h⟩ ::
            (shelfLoop W pad y Z (pad + z.w + pad) z.h).1,
           z.h, (shelfLoop W pad y Z (pad + z.w + pad) z.h).2.2) := by
  have hmax : max (0 : Int) z.h = z.h := max_eq_right (by omega)
  rcases hsl : shelfLoop W pad y Z (pad + z.w + pad) z.h with ⟨ps', sh', rem'⟩
  have hsh : sh' = z.h := by
    have := shelfLoop_sh_const W pad y Z (pad + z.w + pad) z.h hall
    rw [hsl] at this
    exact this
  subst hsh
  have hloop : shelfLoop W pad y (z :: Z) pad 0 =
      (⟨z.idx, pad, y, z.w, z.h⟩ :: ps', z.h, rem') := by
    rw [shelfLoop_cons, if_pos hfit, hmax, hsl]
  rw [shelfStep_def, hloop]
  rw [if_neg (show ¬(z.h = 0) by omega)]

/-- Under positive sizes and positive usable width, every shelf the packing
emits has non-negative height. -/
theorem shelfStep_sh_nonneg {W pad y : Int} {imgs : List ImgSize}
    {ps : List Placement} {sh : Int} {rem : List ImgSize}
    (hpos : ∀ i ∈ imgs, 1 ≤ i.w ∧ 1 ≤ i.h) (hW : 0 < W - 2 * pad)
    (h : shelfStep W pad y imgs = .ok (ps, sh, rem)) : 0 ≤ sh := by
  rw [shelfStep_def] at h
  by_cases hz : (shelfLoop W pad y imgs pad 0).2.1 = 0
  · rw [if_pos hz] at h
    rcases hrem : (shelfLoop W pad y imgs pad 0).2.2 with - | ⟨img, rest⟩ <;>
      rw [hrem] at h
    · exact absurd h (by rw [fallback]; simp)
    · have himg : img ∈ imgs :=
        (shelfLoop_suffix W pad y imgs pad 0).mem (by rw [hrem]; simp)
      rw [fallback_cons] at h
      rw [if_neg (show ¬(W - 2 * pad ≤ 0) by omega),
        if_neg (show ¬(img.w = 0) by have := (hpos img himg).1; omega)] at h
      injection h with h1
      simp only [Prod.mk.injEq] at h1
      obtain ⟨-, hsh, -⟩ := h1
      subst hsh
      exact roundHalfEvenFrac_nonneg
        (mul_nonneg (by have := (hpos img himg).2; omega) (by omega))
        (by have := (hpos img himg).1; omega)
  · rw [if_neg hz] at h
    injection h with h1
    have hsh : sh = (shelfLoop W pad y imgs pad 0).2.1 := by rw [h1]
    rw [hsh]
    exact shelfLoop_sh_le W pad y imgs pad 0

theorem shelfSeq_nonneg (W pad : Int) (hW : 0 < W - 2 * pad) :
    ∀ (n : Nat) (imgs : List ImgSize), imgs.length ≤ n →
      (∀ i ∈ imgs, 1 ≤ i.w ∧ 1 ≤ i.h) →
      ∀ h ∈ shelfSeq W pad imgs, 0 ≤ h := by
  intro n
  induction n with
  | zero =>
    intro imgs hlen hpos h hh
    cases imgs with
    | nil => rw [shelfSeq_nil] at hh; cases hh
    | cons a b => exact absurd hlen (by simp)
  | succ n ih =>
    intro imgs hlen hpos h hh
    cases imgs with
    | nil => rw [shelfSeq_nil] at hh; cases hh
    | cons a b =>
      obtain ⟨ps, sh, rem, hok⟩ :=
        shelfStep_no_error (y := 0) (show a :: b ≠ [] by simp) hpos hW
      rw [shelfSeq_cons (by simp) hok] at hh
      rcases List.mem_cons.mp hh with hh | hh
      · subst hh
        exact shelfStep_sh_nonneg hpos hW hok
      · have hsub := shelfStep_suffix hok
        have hlen' : rem.length ≤ n := by
          have := shelfStep_length hok (by simp)
          simp only [List.length_cons] at this hlen
          omega
        exact ih rem hlen' (fun i hi => hpos i (hsub.mem hi)) h hh
theorem shelfLoop_isSuffix (W pad y : Int) :
    ∀ (imgs : List ImgSize) (sx sh : Int),
      (shelfLoop W pad y imgs sx sh).2.2 <:+ imgs := by
  intro imgs
  induction imgs with
  | nil => intro sx sh; exact List.suffix_refl []
  | cons img rest ih =>
    intro sx sh
    rw [shelfLoop_cons]
    by_cases hfit : img.w + sx + pad ≤ W
    · rw [if_pos hfit]
      exact (ih (sx + img.w + pad) (max sh img.h)).trans
        (List.suffix_cons img rest)
    · rw [if_neg hfit]

/-- Shelf remainders are monotone: a run on a suffix of another run's input,
with at least as much free width (smaller cursor), leaves a remainder that is
a suffix of the other's. -/
theorem shelfLoop_rem_mono (W pad : Int) (hpad : 0 ≤ pad) (y y' : Int) :
    ∀ (Z T : List ImgSize), T <:+ Z → (∀ i ∈ Z, 0 ≤ i.w) →
      ∀ (x x' sh sh' : Int), x ≤ x' →
        (shelfLoop W pad y T x sh).2.2 <:+ (shelfLoop W pad y' Z x' sh').2.2 := by
  intro Z
  induction Z with
  | nil =>
    intro T hsuf hw x x' sh sh' hx
    rw [List.suffix_nil.mp hsuf]
    exact List.suffix_refl _
  | cons z Z' ih =>
    intro T hsuf hw x x' sh sh' hx
    have hzw : 0 ≤ z.w := hw z (by simp)
    rcases List.suffix_cons_iff.mp hsuf with heq | hsuf'
    · subst heq
      by_cases hf' : z.w + x' + pad ≤ W
      · have hf : z.w + x + pad ≤ W := by omega
        rw [shelfLoop_cons, shelfLoop_cons, if_pos hf, if_pos hf']
        exact ih Z' (List.suffix_refl Z') (fun i hi => hw i (by simp [hi]))
          (x + z.w + pad) (x' + z.w + pad) (max sh z.h) (max sh' z.h)
          (by omega)
      · conv_rhs => rw [shelfLoop_cons, if_neg hf']
        exact shelfLoop_isSuffix W pad y (z :: Z') x sh
    · by_cases hf' : z.w + x' + pad ≤ W
      · conv_rhs => rw [shelfLoop_cons, if_pos hf']
        exact ih T hsuf' (fun i hi => hw i (by simp [hi]))
          x (x' + z.w + pad) sh (max sh' z.h) (by omega)
      · conv_rhs => rw [shelfLoop_cons, if_neg hf']
        exact ((shelfLoop_isSuffix W pad y T x sh).trans hsuf').trans
          (List.suffix_cons z Z')

/-- Walking a common prefix `C`: the two runs on `C ++ B` and `C ++ s :: B`
either break inside `C` at the same spot, or both consume all of `C` and
arrive at the junction with the same cursor and shelf height. -/
theorem shelfLoop_junction (W pad y : Int) (hpad : 0 ≤ pad)
    (s : ImgSize) (B : List ImgSize) :
    ∀ (C : List ImgSize), (∀ i ∈ C, 0 ≤ i.w) → ∀ (x sh : Int),
      (∃ D, (shelfLoop W pad y (C ++ B) x sh).2.2 = D ++ B ∧
            (shelfLoop W pad y (C ++ s :: B) x sh).2.2 = D ++ s :: B) ∨
      (∃ xC shC, x ≤ xC ∧
            (shelfLoop W pad y (C ++ B) x sh).2.2 =
              (shelfLoop W pad y B xC shC).2.2 ∧
            (shelfLoop W pad y (C ++ s :: B) x sh).2.2 =
              (shelfLoop W pad y (s :: B) xC shC).2.2) := by
  intro C
  induction C with
  | nil =>
    intro hw x sh
    exact Or.inr ⟨x, sh, le_refl x, rfl, rfl⟩
  | cons c C' ih =>
    intro hw x sh
    have hcw : 0 ≤ c.w := hw c (by simp)
    by_cases hf : c.w + x + pad ≤ W
    · rw [List.cons_append, List.cons_append, shelfLoop_cons, shelfLoop_cons,
        if_pos hf, if_pos hf]
      rcases ih (fun i hi => hw i (by simp [hi])) (x + c.w + pad) (max sh c.h)
        with ⟨D, h1, h2⟩ | ⟨xC, shC, hx, h1, h2⟩
      · exact Or.inl ⟨D, h1, h2⟩
      · exact Or.inr ⟨xC, shC, by omega, h1, h2⟩
    · rw [List.cons_append, List.cons_append, shelfLoop_cons, shelfLoop_cons,
        if_neg hf, if_neg hf]
      exact Or.inl ⟨c :: C', rfl, rfl⟩
/-- Packing a suffix of a height-sorted list produces a shelf-height sequence
that embeds (`hins`) into the full list's: the full run's extra leading images
only insert shelves and raise the heights of the matched ones. -/
theorem shelfSeq_hins_suffix (W pad : Int) (hpad : 0 ≤ pad)
    (hW : 0 < W - 2 * pad) :
    ∀ (n : Nat) (X₂ X₁ : List ImgSize), X₂.length ≤ n →
      X₂.Pairwise (fun a b => b.h ≤ a.h) →
      (∀ i ∈ X₂, 1 ≤ i.w ∧ 1 ≤ i.h) →
      X₁ <:+ X₂ →
      hins (shelfSeq W pad X₁) (shelfSeq W pad X₂) := by
  intro n
  induction n with
  | zero =>
    intro X₂ X₁ hlen hsort hpos hsuf
    cases X₂ with
    | cons a b => exact absurd hlen (by simp)
    | nil =>
      rw [List.suffix_nil.mp hsuf, shelfSeq_nil]
      exact hins_nil _
  | succ n ih =>
    intro X₂ X₁ hlen hsort hpos hsuf
    by_cases heq : X₁ = X₂
    · rw [heq]
      exact hins_refl _
    cases X₂ with
    | nil =>
      rw [List.suffix_nil.mp hsuf, shelfSeq_nil]
      exact hins_nil _
    | cons z Z₂ =>
      have hz := hpos z (by simp)
      have hX₁Z : X₁ <:+ Z₂ := by
        rcases List.suffix_cons_iff.mp hsuf with h | h
        · exact absurd h heq
        · exact h
      have hwZ : ∀ i ∈ z :: Z₂, 0 ≤ i.w := fun i hi => by
        have := (hpos i hi).1; omega
      have hallZ : ∀ i ∈ Z₂, i.h ≤ z.h := (List.pairwise_cons.mp hsort).1
      by_cases hbig : z.w + pad + pad ≤ W
      · -- the taller head opens a normal shelf of height `z.h`
        have hstep₂ := shelfStep_fits (y := 0) (Z := Z₂) hbig hz.2 hallZ
        have hseq₂ := shelfSeq_cons (by simp) hstep₂
        have hmaxz : max (0 : Int) z.h = z.h := max_eq_right (by omega)
        have hlr₂ : (shelfLoop W pad 0 (z :: Z₂) pad 0).2.2 =
            (shelfLoop W pad 0 Z₂ (pad + z.w + pad) z.h).2.2 := by
          rw [shelfLoop_cons, if_pos hbig, hmaxz]
        have hmono := shelfLoop_rem_mono W pad hpad 0 0 (z :: Z₂) X₁ hsuf hwZ
          pad pad 0 0 (le_refl pad)
        rw [hlr₂] at hmono
        have hlen₂ : (shelfLoop W pad 0 Z₂ (pad + z.w + pad) z.h).2.2.length ≤ n := by
          have h1 := shelfStep_length hstep₂ (by simp)
          simp only [List.length_cons] at h1 hlen
          omega
        have hsub₂ := shelfStep_suffix hstep₂
        have hsort₂ := hsort.sublist hsub₂
        have hpos₂ : ∀ i ∈ (shelfLoop W pad 0 Z₂ (pad + z.w + pad) z.h).2.2,
            1 ≤ i.w ∧ 1 ≤ i.h := fun i hi => hpos i (hsub₂.mem hi)
        cases hX₁c : X₁ with
        | nil =>
          rw [shelfSeq_nil]
          exact hins_nil _
        | cons t T₁ =>
          subst hX₁c
          have ht := hpos t (hsuf.mem (by simp))
          have hth : t.h ≤ z.h := hallZ t (hX₁Z.mem (by simp))
          have hsortX₁ := hsort.sublist hsuf.sublist
          have hallT₁ : ∀ i ∈ T₁, i.h ≤ t.h := (List.pairwise_cons.mp hsortX₁).1
          by_cases hbig₁ : t.w + pad + pad ≤ W
          · -- both runs open normal shelves
            have hstep₁ := shelfStep_fits (y := 0) (Z := T₁) hbig₁ ht.2 hallT₁
            have hseq₁ := shelfSeq_cons (by simp) hstep₁
            have hmaxt : max (0 : Int) t.h = t.h := max_eq_right (by omega)
            have hlr₁ : (shelfLoop W pad 0 (t :: T₁) pad 0).2.2 =
                (shelfLoop W pad 0 T₁ (pad + t.w + pad) t.h).2.2 := by
              rw [shelfLoop_cons, if_pos hbig₁, hmaxt]
            rw [hlr₁] at hmono
            rw [hseq₁, hseq₂]
            exact hins_cons_of_le hth
              (ih _ _ hlen₂ hsort₂ hpos₂ hmono)
          · -- the suffix run's head is oversized: its scaled shelf is no
            -- taller than the full run's leading shelf
            have hstep₁ := shelfStep_oversized (y := 0) (Z := T₁) hbig₁ hW
              (by omega)
            have hseq₁ := shelfSeq_cons (by simp) hstep₁
            have hlr₁ : (shelfLoop W pad 0 (t :: T₁) pad 0).2.2 = t :: T₁ := by
              rw [shelfLoop_cons, if_neg hbig₁]
            rw [hlr₁] at hmono
            rw [hseq₁, hseq₂]
            refine hins_cons_of_le ?_ (ih _ _ hlen₂ hsort₂ hpos₂
              (((List.suffix_cons t T₁).trans (List.suffix_refl _)).trans hmono))
            exact le_trans
              (roundHalfEvenFrac_le_mul (by omega) (by omega) (by omega)) hth
      · -- the full run's head is oversized: insert its scaled shelf
        have hstep₂ := shelfStep_oversized (y := 0) (Z := Z₂) hbig hW (by omega)
        have hseq₂ := shelfSeq_cons (by simp) hstep₂
        rw [hseq₂]
        refine hins_insert _ (ih Z₂ X₁ ?_ ?_ ?_ hX₁Z)
        · simp only [List.length_cons] at hlen
          omega
        · exact (List.pairwise_cons.mp hsort).2
        · exact fun i hi => hpos i (by simp [hi])
/-- Inserting one image `s` into a height-sorted list, at its sorted position,
only makes the shelf-height sequence larger in the `hins` order: the common
prefix produces identical shelves up to the shelf that meets `s`, and from
there the run without `s` works on a suffix with at least as much room. -/
theorem shelfSeq_hins_insert (W pad : Int) (hpad : 0 ≤ pad)
    (hW : 0 < W - 2 * pad) (s : ImgSize) :
    ∀ (n : Nat) (C B : List ImgSize), (C ++ s :: B).length ≤ n →
      (C ++ s :: B).Pairwise (fun a b => b.h ≤ a.h) →
      (∀ i ∈ C ++ s :: B, 1 ≤ i.w ∧ 1 ≤ i.h) →
      hins (shelfSeq W pad (C ++ B)) (shelfSeq W pad (C ++ s :: B)) := by
  intro n
  induction n with
  | zero =>
    intro C B hlen hsort hpos
    exact absurd hlen (by simp)
  | succ n ih =>
    intro C B hlen hsort hpos
    cases C with
    | nil =>
      exact shelfSeq_hins_suffix W pad hpad hW (n + 1) (s :: B) B hlen hsort
        hpos (List.suffix_cons s B)
    | cons c C' =>
      show hins (shelfSeq W pad (c :: (C' ++ B)))
        (shelfSeq W pad (c :: (C' ++ s :: B)))
      have hsort' : (C' ++ s :: B).Pairwise (fun a b => b.h ≤ a.h) :=
        (List.pairwise_cons.mp hsort).2
      have hpos' : ∀ i ∈ C' ++ s :: B, 1 ≤ i.w ∧ 1 ≤ i.h :=
        fun i hi => hpos i (by simp [hi])
      have hlen' : (C' ++ s :: B).length ≤ n := by
        simp only [List.length_append, List.length_cons] at hlen ⊢
        omega
      have hc := hpos c (by simp)
      have hall₂ : ∀ i ∈ C' ++ s :: B, i.h ≤ c.h := (List.pairwise_cons.mp hsort).1
      have hall₁ : ∀ i ∈ C' ++ B, i.h ≤ c.h := by
        intro i hi
        refine hall₂ i ?_
        rcases List.mem_append.mp hi with h | h
        · exact List.mem_append.mpr (Or.inl h)
        · exact List.mem_append.mpr (Or.inr (by simp [h]))
      by_cases hbig : c.w + pad + pad ≤ W
      · -- the common head opens a shelf of height `c.h` in both runs
        have hstep₁ := shelfStep_fits (y := 0) (Z := C' ++ B) hbig hc.2 hall₁
        have hstep₂ := shelfStep_fits (y := 0) (Z := C' ++ s :: B) hbig hc.2 hall₂
        have hseq₁ := shelfSeq_cons (by simp) hstep₁
        have hseq₂ := shelfSeq_cons (by simp) hstep₂
        rw [hseq₁, hseq₂]
        have hsub₂ := shelfStep_suffix hstep₂
        have hlen₂ :
            (shelfLoop W pad 0 (C' ++ s :: B) (pad + c.w + pad) c.h).2.2.length
              ≤ n := by
          have h1 := shelfStep_length hstep₂ (by simp)
          simp only [List.length_cons] at h1 hlen
          omega
        have hsort₂ := hsort.sublist hsub₂
        have hpos₂ : ∀ i ∈
            (shelfLoop W pad 0 (C' ++ s :: B) (pad + c.w + pad) c.h).2.2,
            1 ≤ i.w ∧ 1 ≤ i.h := fun i hi => hpos i (hsub₂.mem hi)
        have hwC' : ∀ i ∈ C', 0 ≤ i.w := fun i hi => by
          have := (hpos' i (by simp [hi])).1; omega
        rcases shelfLoop_junction W pad 0 hpad s B C' hwC' (pad + c.w + pad) c.h
          with ⟨D, hD₁, hD₂⟩ | ⟨xC, shC, hx, hx₁, hx₂⟩
        · -- both shelves break inside the common prefix
          rw [hD₁, hD₂]
          refine hins_cons_of_le (le_refl c.h) (ih D B ?_ ?_ ?_)
          · rw [← hD₂]; exact hlen₂
          · rw [← hD₂]; exact hsort₂
          · rw [← hD₂]; exact hpos₂
        · -- both runs reach the junction with cursor `xC`
          have hs := hpos s (by simp)
          by_cases hsfit : s.w + xC + pad ≤ W
          · -- `s` joins the open shelf of the run that has it
            have hx₂' : (shelfLoop W pad 0 (s :: B) xC shC).2.2 =
                (shelfLoop W pad 0 B (xC + s.w + pad) (max shC s.h)).2.2 := by
              rw [shelfLoop_cons, if_pos hsfit]
            have hwB : ∀ i ∈ B, 0 ≤ i.w := fun i hi => by
              have := (hpos' i (by simp [hi])).1; omega
            have hmono := shelfLoop_rem_mono W pad hpad 0 0 B B
              (List.suffix_refl B) hwB xC (xC + s.w + pad) shC (max shC s.h)
              (by have := hs.1; omega)
            rw [hx₁, hx₂, hx₂']
            refine hins_cons_of_le (le_refl c.h)
              (shelfSeq_hins_suffix W pad hpad hW n _ _ ?_ ?_ ?_ hmono)
            · rw [← hx₂'] at hmono ⊢
              rw [← hx₂]; exact hlen₂
            · rw [← hx₂', ← hx₂]; exact hsort₂
            · rw [← hx₂', ← hx₂]; exact hpos₂
          · -- `s` closes the shelf: the run without it continues into `B`
            have hx₂' : (shelfLoop W pad 0 (s :: B) xC shC).2.2 = s :: B := by
              rw [shelfLoop_cons, if_neg hsfit]
            have hrem₁B : (shelfLoop W pad 0 B xC shC).2.2 <:+ s :: B :=
              (shelfLoop_isSuffix W pad 0 B xC shC).trans (List.suffix_cons s B)
            rw [hx₁, hx₂, hx₂']
            refine hins_cons_of_le (le_refl c.h)
              (shelfSeq_hins_suffix W pad hpad hW n _ _ ?_ ?_ ?_ hrem₁B)
            · rw [← hx₂']
              rw [← hx₂]; exact hlen₂
            · rw [← hx₂', ← hx₂]; exact hsort₂
            · rw [← hx₂', ← hx₂]; exact hpos₂
      · -- the common head is oversized: identical fallback shelves
        have hstep₁ := shelfStep_oversized (y := 0) (Z := C' ++ B) hbig hW
          (by omega)
        have hstep₂ := shelfStep_oversized (y := 0) (Z := C' ++ s :: B) hbig hW
          (by omega)
        have hseq₁ := shelfSeq_cons (by simp) hstep₁
        have hseq₂ := shelfSeq_cons (by simp) hstep₂
        rw [hseq₁, hseq₂]
        exact hins_cons_of_le (le_refl _) (ih C' B hlen' hsort' hpos')
/-! ## The height-descending sort and its stability

`main` sorts `sizes.sort(key=lambda x: x[1], reverse=True)` — a stable sort
by height, descending — before packing (source line 158).  Python's stable
sort is modelled by `List.mergeSort` with the height-descending order. -/

def heightGe (a b : ImgSize) : Bool := b.h ≤ a.h

/-- The height-descending stable sort applied in `main` before packing. -/
def sortByHeightDesc (l : List ImgSize) : List ImgSize :=
  l.mergeSort heightGe

theorem heightGe_trans : ∀ (a b c : ImgSize),
    heightGe a b → heightGe b c → heightGe a c := by
  intro a b c hab hbc
  simp only [heightGe, decide_eq_true_eq] at hab hbc ⊢
  omega

theorem heightGe_total : ∀ (a b : ImgSize), heightGe a b || heightGe b a := by
  intro a b
  simp only [heightGe, Bool.or_eq_true, decide_eq_true_eq]
  omega

theorem sortByHeightDesc_sorted (l : List ImgSize) :
    (sortByHeightDesc l).Pairwise (fun a b => b.h ≤ a.h) := by
  have h := List.sorted_mergeSort heightGe_trans heightGe_total l
  exact h.imp (fun hab => by
    simpa only [heightGe, decide_eq_true_eq] using hab)

theorem mem_sortByHeightDesc {a : ImgSize} {l : List ImgSize} :
    a ∈ sortByHeightDesc l ↔ a ∈ l := List.mem_mergeSort

/-- Two decompositions of one list into a prefix of `P`-elements and a suffix
of non-`P`-elements coincide. -/
theorem split_pred_unique {α : Type} (P : α → Prop) :
    ∀ (u v u' v' : List α), u ++ v = u' ++ v' →
      (∀ b ∈ u, P b) → (∀ c ∈ v, ¬ P c) →
      (∀ b ∈ u', P b) → (∀ c ∈ v', ¬ P c) → u = u' := by
  intro u
  induction u with
  | nil =>
    intro v u' v' heq hu hv hu' hv'
    cases u' with
    | nil => rfl
    | cons x u' =>
      exfalso
      have hx : x ∈ v := by
        rw [List.nil_append] at heq
        rw [heq]
        simp
      exact hv x hx (hu' x (by simp))
  | cons a u ihu =>
    intro v u' v' heq hu hv hu' hv'
    cases u' with
    | nil =>
      exfalso
      have ha : a ∈ v' := by
        rw [List.nil_append] at heq
        rw [← heq]
        simp
      exact hv' a ha (hu a (by simp))
    | cons x u' =>
      simp only [List.cons_append, List.cons.injEq] at heq
      obtain ⟨hax, heq'⟩ := heq
      subst hax
      have h := ihu v u' v' heq' (fun b hb => hu b (by simp [hb])) hv
        (fun b hb => hu' b (by simp [hb])) hv'
      rw [h]

theorem sorted_dropWhile_height (t : Int) :
    ∀ (X : List ImgSize), X.Pairwise (fun u v => v.h ≤ u.h) →
      ∀ c ∈ X.dropWhile (fun b => decide (t < b.h)), ¬ t < c.h := by
  intro X
  induction X with
  | nil =>
    intro _ c hc
    simp only [List.dropWhile_nil] at hc
    cases hc
  | cons x xs ih =>
    intro hp c hc
    rw [List.dropWhile_cons] at hc
    by_cases hx : t < x.h
    · rw [if_pos (by simpa using hx)] at hc
      exact ih (List.pairwise_cons.mp hp).2 c hc
    · rw [if_neg (by simpa using hx)] at hc
      rcases List.mem_cons.mp hc with rfl | hc'
      · exact hx
      · have hle : c.h ≤ x.h := (List.pairwise_cons.mp hp).1 c hc'
        omega
/-- Stability of the height-descending sort under appending one element:
sorting `L ++ [s]` inserts `s` into the sorted `L` after every element of
height at least `s.h` (stability puts `s`, the last arrival, after its ties)
and before every strictly smaller element. -/
theorem sortByHeightDesc_append_singleton (s : ImgSize) :
    ∀ (L : List ImgSize), ∃ A B,
      sortByHeightDesc (L ++ [s]) = A ++ s :: B ∧
      sortByHeightDesc L = A ++ B ∧
      (∀ b ∈ A, s.h ≤ b.h) ∧ (∀ c ∈ B, c.h < s.h) := by
  intro L
  induction L with
  | nil =>
    refine ⟨[], [], ?_, ?_, by simp, by simp⟩
    · simp [sortByHeightDesc, List.mergeSort]
    · simp [sortByHeightDesc, List.mergeSort]
  | cons a L' ih =>
    obtain ⟨A', B', hA', hAB, hge, hlt⟩ := ih
    simp only [sortByHeightDesc] at hA' hAB
    obtain ⟨l₁, l₂, h1, h2, h3⟩ :=
      List.mergeSort_cons heightGe_trans heightGe_total a (L' ++ [s])
    obtain ⟨m₁, m₂, g1, g2, g3⟩ :=
      List.mergeSort_cons heightGe_trans heightGe_total a L'
    have h3' : ∀ b ∈ l₁, a.h < b.h := by
      intro b hb
      have := h3 b hb
      simp only [heightGe, Bool.not_eq_eq_eq_not, Bool.not_true,
        decide_eq_false_iff_not] at this
      omega
    have g3' : ∀ b ∈ m₁, a.h < b.h := by
      intro b hb
      have := g3 b hb
      simp only [heightGe, Bool.not_eq_eq_eq_not, Bool.not_true,
        decide_eq_false_iff_not] at this
      omega
    have S1 : (l₁ ++ a :: l₂).Pairwise (fun u v => heightGe u v = true) := by
      rw [← h1]
      exact List.sorted_mergeSort heightGe_trans heightGe_total _
    have S2 : (m₁ ++ a :: m₂).Pairwise (fun u v => heightGe u v = true) := by
      rw [← g1]
      exact List.sorted_mergeSort heightGe_trans heightGe_total _
    have hl₂ : ∀ c ∈ l₂, ¬ a.h < c.h := by
      intro c hc
      have h := (List.pairwise_cons.mp (List.pairwise_append.mp S1).2.1).1 c hc
      simp only [heightGe, decide_eq_true_eq] at h
      omega
    have hm₂ : ∀ c ∈ m₂, ¬ a.h < c.h := by
      intro c hc
      have h := (List.pairwise_cons.mp (List.pairwise_append.mp S2).2.1).1 c hc
      simp only [heightGe, decide_eq_true_eq] at h
      omega
    have hsortX : (A' ++ s :: B').Pairwise (fun u v : ImgSize => v.h ≤ u.h) := by
      have h := List.sorted_mergeSort heightGe_trans heightGe_total (L' ++ [s])
      rw [hA'] at h
      exact h.imp (fun hab => by
        simpa only [heightGe, decide_eq_true_eq] using hab)
    have hsortY : (A' ++ B').Pairwise (fun u v : ImgSize => v.h ≤ u.h) := by
      have h := List.sorted_mergeSort heightGe_trans heightGe_total L'
      rw [hAB] at h
      exact h.imp (fun hab => by
        simpa only [heightGe, decide_eq_true_eq] using hab)
    by_cases hcase : s.h ≤ a.h
    · -- `a` lands inside (or at the end of) the `≥ s.h` part `A'`
      have hA'sorted : A'.Pairwise (fun u v : ImgSize => v.h ≤ u.h) :=
        (List.pairwise_append.mp hsortY).1
      have htakeP : ∀ b ∈ A'.takeWhile (fun b => decide (a.h < b.h)),
          a.h < b.h := fun b hb => by simpa using List.mem_takeWhile_imp hb
      have hdropP : ∀ c ∈ A'.dropWhile (fun b => decide (a.h < b.h)),
          ¬ a.h < c.h := sorted_dropWhile_height a.h A' hA'sorted
      have hmemtake : ∀ b ∈ A'.takeWhile (fun b => decide (a.h < b.h)),
          b ∈ A' := fun b hb =>
        (List.takeWhile_sublist (fun b : ImgSize => decide (a.h < b.h))).mem hb
      have hmemdrop : ∀ c ∈ A'.dropWhile (fun b => decide (a.h < b.h)),
          c ∈ A' := fun c hc =>
        (List.dropWhile_suffix (fun b : ImgSize => decide (a.h < b.h))).mem hc
      have hsplitA :
          A'.takeWhile (fun b => decide (a.h < b.h)) ++
            A'.dropWhile (fun b => decide (a.h < b.h)) = A' :=
        List.takeWhile_append_dropWhile (fun b : ImgSize => decide (a.h < b.h)) A'
      have heqs : l₁ ++ l₂ =
          A'.takeWhile (fun b => decide (a.h < b.h)) ++
            (A'.dropWhile (fun b => decide (a.h < b.h)) ++ s :: B') := by
        rw [← List.append_assoc, hsplitA, ← h2, hA']
      have hvs : ∀ c ∈ A'.dropWhile (fun b => decide (a.h < b.h)) ++ s :: B',
          ¬ a.h < c.h := by
        intro c hc
        rcases List.mem_append.mp hc with hc | hc
        · exact hdropP c hc
        · rcases List.mem_cons.mp hc with rfl | hc
          · omega
          · have := hlt c hc
            omega
      have hl1 : l₁ = A'.takeWhile (fun b => decide (a.h < b.h)) :=
        split_pred_unique (fun b => a.h < b.h) l₁ l₂ _ _ heqs h3' hl₂ htakeP hvs
      have hl2 : l₂ = A'.dropWhile (fun b => decide (a.h < b.h)) ++ s :: B' :=
        List.append_cancel_left (by rw [← heqs, hl1])
      have heqn : m₁ ++ m₂ =
          A'.takeWhile (fun b => decide (a.h < b.h)) ++
            (A'.dropWhile (fun b => decide (a.h < b.h)) ++ B') := by
        rw [← List.append_assoc, hsplitA, ← g2, hAB]
      have hvn : ∀ c ∈ A'.dropWhile (fun b => decide (a.h < b.h)) ++ B',
          ¬ a.h < c.h := by
        intro c hc
        rcases List.mem_append.mp hc with hc | hc
        · exact hdropP c hc
        · have := hlt c hc
          omega
      have hm1 : m₁ = A'.takeWhile (fun b => decide (a.h < b.h)) :=
        split_pred_unique (fun b => a.h < b.h) m₁ m₂ _ _ heqn g3' hm₂ htakeP hvn
      have hm2 : m₂ = A'.dropWhile (fun b => decide (a.h < b.h)) ++ B' :=
        List.append_cancel_left (by rw [← heqn, hm1])
      refine ⟨A'.takeWhile (fun b => decide (a.h < b.h)) ++
        a :: A'.dropWhile (fun b => decide (a.h < b.h)), B', ?_, ?_, ?_, hlt⟩
      · show List.mergeSort ((a :: L') ++ [s]) heightGe = _
        rw [List.cons_append, h1, hl1, hl2]
        simp
      · show List.mergeSort (a :: L') heightGe = _
        rw [g1, hm1, hm2]
        simp
      · intro b hb
        rcases List.mem_append.mp hb with hb | hb
        · exact hge b (hmemtake b hb)
        · rcases List.mem_cons.mp hb with rfl | hb
          · exact hcase
          · exact hge b (hmemdrop b hb)
    · -- `a` is strictly shorter than `s`: it lands inside `B'`
      have hB'sorted : B'.Pairwise (fun u v : ImgSize => v.h ≤ u.h) :=
        hsortX.sublist
          ((List.sublist_cons_self s B').trans (List.sublist_append_right A' _))
      have htakeP : ∀ b ∈ B'.takeWhile (fun b => decide (a.h < b.h)),
          a.h < b.h := fun b hb => by simpa using List.mem_takeWhile_imp hb
      have hdropP : ∀ c ∈ B'.dropWhile (fun b => decide (a.h < b.h)),
          ¬ a.h < c.h := sorted_dropWhile_height a.h B' hB'sorted
      have hmemtake : ∀ b ∈ B'.takeWhile (fun b => decide (a.h < b.h)),
          b ∈ B' := fun b hb =>
        (List.takeWhile_sublist (fun b : ImgSize => decide (a.h < b.h))).mem hb
      have hmemdrop : ∀ c ∈ B'.dropWhile (fun b => decide (a.h < b.h)),
          c ∈ B' := fun c hc =>
        (List.dropWhile_suffix (fun b : ImgSize => decide (a.h < b.h))).mem hc
      have hsplitB :
          B'.takeWhile (fun b => decide (a.h < b.h)) ++
            B'.dropWhile (fun b => decide (a.h < b.h)) = B' :=
        List.takeWhile_append_dropWhile (fun b : ImgSize => decide (a.h < b.h)) B'
      have hus : ∀ b ∈ A' ++ s :: B'.takeWhile (fun b => decide (a.h < b.h)),
          a.h < b.h := by
        intro b hb
        rcases List.mem_append.mp hb with hb | hb
        · have := hge b hb
          omega
        · rcases List.mem_cons.mp hb with rfl | hb
          · omega
          · exact htakeP b hb
      have heqs : l₁ ++ l₂ =
          (A' ++ s :: B'.takeWhile (fun b => decide (a.h < b.h))) ++
            B'.dropWhile (fun b => decide (a.h < b.h)) := by
        rw [List.append_assoc, List.cons_append, hsplitB, ← h2, hA']
      have hl1 : l₁ = A' ++ s :: B'.takeWhile (fun b => decide (a.h < b.h)) :=
        split_pred_unique (fun b => a.h < b.h) l₁ l₂ _ _ heqs h3' hl₂ hus hdropP
      have hl2 : l₂ = B'.dropWhile (fun b => decide (a.h < b.h)) :=
        List.append_cancel_left (by rw [← heqs, hl1])
      have hun : ∀ b ∈ A' ++ B'.takeWhile (fun b => decide (a.h < b.h)),
          a.h < b.h := by
        intro b hb
        rcases List.mem_append.mp hb with hb | hb
        · have := hge b hb
          omega
        · exact htakeP b hb
      have heqn : m₁ ++ m₂ =
          (A' ++ B'.takeWhile (fun b => decide (a.h < b.h))) ++
            B'.dropWhile (fun b => decide (a.h < b.h)) := by
        rw [List.append_assoc, hsplitB, ← g2, hAB]
      have hm1 : m₁ = A' ++ B'.takeWhile (fun b => decide (a.h < b.h)) :=
        split_pred_unique (fun b => a.h < b.h) m₁ m₂ _ _ heqn g3' hm₂ hun hdropP
      have hm2 : m₂ = B'.dropWhile (fun b => decide (a.h < b.h)) :=
        List.append_cancel_left (by rw [← heqn, hm1])
      refine ⟨A', B'.takeWhile (fun b => decide (a.h < b.h)) ++
        a :: B'.dropWhile (fun b => decide (a.h < b.h)), ?_, ?_, hge, ?_⟩
      · show List.mergeSort ((a :: L') ++ [s]) heightGe = _
        rw [List.cons_append, h1, hl1, hl2]
        simp
      · show List.mergeSort (a :: L') heightGe = _
        rw [g1, hm1, hm2]
        simp
      · intro c hc
        rcases List.mem_append.mp hc with hc | hc
        · exact hlt c (hmemtake c hc)
        · rcases List.mem_cons.mp hc with rfl | hc
          · omega
          · exact hlt c (hmemdrop c hc)
/-- C9 (Monotonic page growth): with the configuration
`(pageWidth, pageHeight, padding)` held fixed (non-negative padding, both
usable dimensions positive, as the configuration contract requires) and the
height-descending stable sort of `main` applied before packing, appending one
more image `s` to the input list `L` never decreases the number of pages:
packing the sorted `L` yields `n` pages, packing the sorted `L ++ [s]` yields
`n'` pages, and `n ≤ n'`. -/
theorem C9_monotonic_pages (L : List ImgSize) (s : ImgSize) (W H pad : Int)
    (hpad : 0 ≤ pad) (hW : 2 * pad < W) (hH : 2 * pad < H)
    (hpos : ∀ i ∈ L, 1 ≤ i.w ∧ 1 ≤ i.h) (hs : 1 ≤ s.w ∧ 1 ≤ s.h) :
    ∃ n n',
      numPages (pack_images_shelf (sortByHeightDesc L) W H pad) = some n ∧
      numPages (pack_images_shelf (sortByHeightDesc (L ++ [s])) W H pad) =
        some n' ∧
      n ≤ n' := by
  have hposX₁ : ∀ i ∈ sortByHeightDesc L, 1 ≤ i.w ∧ 1 ≤ i.h :=
    fun i hi => hpos i (mem_sortByHeightDesc.mp hi)
  have hposX₂ : ∀ i ∈ sortByHeightDesc (L ++ [s]), 1 ≤ i.w ∧ 1 ≤ i.h := by
    intro i hi
    rcases List.mem_append.mp (mem_sortByHeightDesc.mp hi) with h | h
    · exact hpos i h
    · rcases List.mem_singleton.mp h with rfl
      exact hs
  obtain ⟨P₁, hp₁⟩ := pagesLoop_total W H pad (by omega) hH
    ((sortByHeightDesc L).length + 1) (sortByHeightDesc L) (by omega) hposX₁
  obtain ⟨P₂, hp₂⟩ := pagesLoop_total W H pad (by omega) hH
    ((sortByHeightDesc (L ++ [s])).length + 1) (sortByHeightDesc (L ++ [s]))
    (by omega) hposX₂
  refine ⟨P₁.length, P₂.length, ?_, ?_, ?_⟩
  · show numPages (pagesLoop W H pad _ _) = _
    rw [hp₁]
    rfl
  · show numPages (pagesLoop W H pad _ _) = _
    rw [hp₂]
    rfl
  · by_cases hX₁ne : sortByHeightDesc L = []
    · rw [hX₁ne, pagesLoop_nil] at hp₁
      injection hp₁ with h1
      injection h1 with h2
      rw [← h2]
      simp
    · have hX₂ne : sortByHeightDesc (L ++ [s]) ≠ [] := by
        intro h
        have := congrArg List.length h
        simp only [sortByHeightDesc, List.length_mergeSort, List.length_append,
          List.length_cons, List.length_nil] at this
        omega
      have hg₁ := pagesLoop_gLoop W H pad (by omega) (by omega) _ _ P₁ 1
        hposX₁ hX₁ne hp₁
      have hg₂ := pagesLoop_gLoop W H pad (by omega) (by omega) _ _ P₂ 1
        hposX₂ hX₂ne hp₂
      obtain ⟨A, B, hA, hAB, -, -⟩ := sortByHeightDesc_append_singleton s L
      have hsorted₂ : (A ++ s :: B).Pairwise (fun a b => b.h ≤ a.h) := by
        rw [← hA]
        exact sortByHeightDesc_sorted (L ++ [s])
      have hpos₂' : ∀ i ∈ A ++ s :: B, 1 ≤ i.w ∧ 1 ≤ i.h := by
        rw [← hA]
        exact hposX₂
      have hemb := shelfSeq_hins_insert W pad hpad (by omega) s
        (A ++ s :: B).length A B (le_refl _) hsorted₂ hpos₂'
      rw [← hAB, ← hA] at hemb
      have hnn₁ := shelfSeq_nonneg W pad (by omega) (sortByHeightDesc L).length
        (sortByHeightDesc L) (le_refl _) hposX₁
      have hnn₂ := shelfSeq_nonneg W pad (by omega)
        (sortByHeightDesc (L ++ [s])).length (sortByHeightDesc (L ++ [s]))
        (le_refl _) hposX₂
      have hmono := gLoop_mono H pad (by omega) hpad
        (shelfSeq W pad (sortByHeightDesc (L ++ [s])))
        (shelfSeq W pad (sortByHeightDesc L)) hemb hnn₁ hnn₂
        1 1 pad pad (le_refl pad) (le_refl pad) (Or.inr ⟨rfl, le_refl pad⟩)
      rw [hg₁, hg₂] at hmono
      omega

theorem C9_monotonic_pages_witness :
    ((0:Int) ≤ 10 ∧ 2 * 10 < (300:Int) ∧ 2 * 10 < (300:Int) ∧
      (∀ i ∈ [(⟨100, 100, 0⟩ : ImgSize)], 1 ≤ i.w ∧ 1 ≤ i.h) ∧
      (1 ≤ (⟨100, 100, 1⟩ : ImgSize).w ∧ 1 ≤ (⟨100, 100, 1⟩ : ImgSize).h)) ∧
    (∃ n n',
      numPages (pack_images_shelf (sortByHeightDesc [⟨100, 100, 0⟩])
        300 300 10) = some n ∧
      numPages (pack_images_shelf (sortByHeightDesc
        ([⟨100, 100, 0⟩] ++ [⟨100, 100, 1⟩])) 300 300 10) = some n' ∧
      n ≤ n') :=
  ⟨⟨by decide, by decide, by decide, by decide, by decide⟩,
    C9_monotonic_pages [⟨100, 100, 0⟩] ⟨100, 100, 1⟩ 300 300 10
      (by decide) (by decide) (by decide) (by decide) (by decide)⟩
